import Mathlib

/-!
Verification development for the release-viewer sync pipeline (`sync.ts`).

The definitions below are a shallow embedding of the code in `sync.ts`:
the diff engine `collectDiff`, the report aggregation `countDiffFiles`,
the self-healing fix pass of `main`, the `Mutex` bounded semaphore, the
compare-configuration loading of `main`, and the CLI argument loop
`parseArgs`.  JavaScript objects used as string-keyed records are
modelled as association lists that preserve insertion order, matching
the enumeration order of `Object.entries` / `Object.values`.
-/

namespace ReleaseViewer

/-- Release asset, from the `ReleaseAsset` interface in `src/config.ts`
(fields not consulted by `sync.ts` are omitted). -/
structure ReleaseAsset where
  name : String
  size : Nat
  digest : String
  download_url : String
deriving DecidableEq

/-- Release, from the `Release` interface in `src/config.ts`.  The nested
`tag.name` field is flattened to `tagName`; `tar_url` and `zip_url` are
plain strings there (the empty string is the JavaScript-falsy case). -/
structure Release where
  name : String
  tagName : String
  assets : List ReleaseAsset
  tar_url : String
  zip_url : String
deriving DecidableEq

/-- Configuration snapshot, from the `Config` interface in `src/config.ts`
(only the fields `sync.ts` reads). -/
structure Config where
  name : String
  releases : List Release
deriving DecidableEq

/-- Entry of the `add` / `modify` / `passedModify` / `fix` records
(`NewRecordItem` in `sync.ts`). -/
structure NewRecordItem where
  downloadUrl : String
  filename : String
deriving DecidableEq

/-- Value of a `remove` record entry: either the whole-tag sentinel `"*"`
or an explicit list of filenames (`RemoveRecord` in `sync.ts`). -/
inductive RemoveEntry where
  | star
  | files (names : List String)
deriving DecidableEq

/-- Lookup in a JavaScript-object-like association list (`obj[k]`);
returns the first binding, and lists built by `aset` have unique keys. -/
def afind {α : Type} : List (String × α) → String → Option α
  | [], _ => none
  | (k', v) :: rest, k => if k' = k then some v else afind rest k

/-- Assignment `obj[k] = v` on a JavaScript-object-like association list:
updates the existing binding in place, or appends a new one at the end. -/
def aset {α : Type} : List (String × α) → String → α → List (String × α)
  | [], k, v => [(k, v)]
  | (k', v') :: rest, k, v =>
    if k' = k then (k, v) :: rest else (k', v') :: aset rest k v

/-- The JavaScript idiom `if (!obj[k]) obj[k] = []; obj[k].push(x)`. -/
def apush {α : Type} : List (String × List α) → String → α → List (String × List α)
  | [], k, x => [(k, [x])]
  | (k', l) :: rest, k, x =>
    if k' = k then (k, l ++ [x]) :: rest else (k', l) :: apush rest k x

/-- The removal-record push of `collectDiff` (sync.ts lines 679-684):
`if (!rec.remove[tag]) rec.remove[tag] = []; const arr = rec.remove[tag];
if (arr !== "*") arr.push(name)`.  A `"*"` sentinel is left untouched. -/
def rpush : List (String × RemoveEntry) → String → String → List (String × RemoveEntry)
  | [], k, n => [(k, RemoveEntry.files [n])]
  | (k', v) :: rest, k, n =>
    if k' = k then
      (k', match v with
           | RemoveEntry.star => RemoveEntry.star
           | RemoveEntry.files l => RemoveEntry.files (l ++ [n])) :: rest
    else (k', v) :: rpush rest k n

/-- Character sanitizer of `genArchiveCtx`: the regex replacement
`[^a-zA-Z0-9._-] -> "_"` applied character-wise. -/
def sanitizeChar (c : Char) : Char :=
  if ('a' ≤ c ∧ c ≤ 'z') ∨ ('A' ≤ c ∧ c ≤ 'Z') ∨ ('0' ≤ c ∧ c ≤ '9')
      ∨ c = '.' ∨ c = '_' ∨ c = '-' then c else '_'

/-- Global replacement of the two-character sequence `\x7b\x7d` by the tag
name, as `fnTmpl.replace(/\x7b\x7d/g, release.tag.name)` does: leftmost,
non-overlapping, without rescanning the substituted text. -/
def replaceBraces : List Char → List Char → List Char
  | [], _ => []
  | '\x7b' :: '\x7d' :: rest, tag => tag ++ replaceBraces rest tag
  | c :: rest, tag => c :: replaceBraces rest tag

/-- Synthetic archive filename of `genArchiveCtx` applied to the template
`config.name ++ "-\x7b\x7d." ++ ext`: substitute the tag name, then
sanitize every character. -/
def archiveName (cfgName tagName ext : String) : String :=
  String.mk ((replaceBraces (cfgName.data ++ ['-', '\x7b', '\x7d', '.'] ++ ext.data)
    tagName.data).map sanitizeChar)

/-- The diff record built by `collectDiff` (before the `fix` pass). -/
structure DiffRec where
  add : List (String × List NewRecordItem)
  remove : List (String × RemoveEntry)
  modify : List (String × List NewRecordItem)
  passedModify : List (String × List NewRecordItem)
deriving DecidableEq

/-- Item `{downloadUrl: asset.download_url, filename: asset.name}`. -/
def mkItem (a : ReleaseAsset) : NewRecordItem :=
  { downloadUrl := a.download_url, filename := a.name }

/-- JavaScript `Map` built by `set` over a list (later entries overwrite
earlier ones), queried with `get`: the last matching element. -/
def mlookup {α : Type} (f : α → String) : List α → String → Option α
  | [], _ => none
  | x :: rest, k =>
    match mlookup f rest k with
    | some y => some y
    | none => if f x = k then some x else none

/-- Asset equality test of `collectDiff` (sync.ts lines 640-644). -/
def sameAsset (a fa : ReleaseAsset) : Bool :=
  a.name == fa.name && a.download_url == fa.download_url
    && a.size == fa.size && a.digest == fa.digest

/-- Body of the per-asset loop of `collectDiff` for a release present in
both snapshots (sync.ts lines 627-663). -/
def diffAssetStep (tag : String) (former : Release) (rec : DiffRec) (a : ReleaseAsset) :
    DiffRec :=
  match mlookup (fun x => x.name) former.assets a.name with
  | none => { rec with add := apush rec.add tag (mkItem a) }
  | some fa =>
    if sameAsset a fa then
      { rec with passedModify := apush rec.passedModify tag (mkItem a) }
    else
      { rec with modify := apush rec.modify tag (mkItem a) }

/-- Body of the archive-slot loop of `collectDiff` for a release present in
both snapshots (sync.ts lines 665-699).  `cur` and `fmr` are the slot URL
in the current and former release; string truthiness is non-emptiness. -/
def diffArchiveStep (cfgName tag : String) (cur fmr : String) (ext : String)
    (rec : DiffRec) : DiffRec :=
  let nm := archiveName cfgName tag ext
  let o : NewRecordItem := { downloadUrl := cur, filename := "archive/" ++ nm }
  if cur ≠ fmr then
    if cur ≠ "" ∧ fmr = "" then
      { rec with modify := apush rec.modify tag o }
    else if cur = "" ∧ fmr ≠ "" then
      { rec with remove := rpush rec.remove tag nm }
    else
      { rec with add := apush rec.add tag o }
  else if cur ≠ "" ∧ fmr ≠ "" then
    { rec with passedModify := apush rec.passedModify tag o }
  else rec

/-- The `addRec` list built for an entirely new release (sync.ts lines
587-606): every asset, then the tar slot if present, then the zip slot if
present — with the bare synthetic filename. -/
def newReleaseAdds (cfgName : String) (r : Release) : List NewRecordItem :=
  r.assets.map mkItem
    ++ (if r.tar_url ≠ "" then
          [{ downloadUrl := r.tar_url, filename := archiveName cfgName r.tagName "tar.gz" }]
        else [])
    ++ (if r.zip_url ≠ "" then
          [{ downloadUrl := r.zip_url, filename := archiveName cfgName r.tagName "zip" }]
        else [])

/-- Body of the per-release loop of `collectDiff` when no compare snapshot
is given (sync.ts lines 704-718): assign the asset list, then
unconditionally push both archive slots (zip, then tar) under an
`archive/` filename, whether or not the URL is present. -/
def noCompareStep (cfgName : String) (rec : DiffRec) (release : Release) : DiffRec :=
  let base := release.assets.map mkItem
  let withBase := { rec with add := aset rec.add release.tagName base }
  let withZip :=
    { withBase with
      add := apush withBase.add release.tagName
        { downloadUrl := release.zip_url,
          filename := "archive/" ++ archiveName cfgName release.tagName "zip" } }
  { withZip with
    add := apush withZip.add release.tagName
      { downloadUrl := release.tar_url,
        filename := "archive/" ++ archiveName cfgName release.tagName "tar.gz" } }

/-- Body of the per-release loop of `collectDiff` when a compare snapshot
is given (sync.ts lines 583-701).  `formerGet` is the `formerReleaseMap`
after the removed releases were deleted from it. -/
def stepRelease (cfgName : String) (formerGet : String → Option Release)
    (rec : DiffRec) (release : Release) : DiffRec :=
  let tag := release.tagName
  match formerGet tag with
  | none =>
    let addRec := newReleaseAdds cfgName release
    if addRec.length > 0 then { rec with add := aset rec.add tag addRec } else rec
  | some former =>
    let removedAssets :=
      former.assets.filter (fun a => !(release.assets.any (fun c => c.name == a.name)))
    let rec1 :=
      if removedAssets.length > 0 then
        { rec with remove := aset rec.remove tag (RemoveEntry.files (removedAssets.map (fun a => a.name))) }
      else rec
    let rec2 := release.assets.foldl (diffAssetStep tag former) rec1
    let rec3 := diffArchiveStep cfgName tag release.zip_url former.zip_url "zip" rec2
    diffArchiveStep cfgName tag release.tar_url former.tar_url "tar.gz" rec3

/-- The diff engine `collectDiff(config, compareConfig)` of sync.ts
(lines 554-721).  With a compare snapshot: mark tags absent from the
current snapshot with the `"*"` sentinel, then process every current
release.  Without one: classify everything as `add`, unconditionally
including both archive slots (zip then tar) under `archive/`. -/
def collectDiff (config : Config) (compareConfig : Option Config) : DiffRec :=
  match compareConfig with
  | some cc =>
    let curHas := fun t => config.releases.any (fun r => r.tagName == t)
    let removed := cc.releases.filter (fun r => !(curHas r.tagName))
    let rec1 : DiffRec :=
      { add := [],
        remove := removed.foldl (fun m r => aset m r.tagName RemoveEntry.star) [],
        modify := [], passedModify := [] }
    let formerGet := fun t =>
      if removed.any (fun r => r.tagName == t) then none
      else mlookup (fun r => r.tagName) cc.releases t
    config.releases.foldl (stepRelease config.name formerGet) rec1
  | none =>
    config.releases.foldl (noCompareStep config.name)
      { add := [], remove := [], modify := [], passedModify := [] }

/-- Helper of `countDiffFiles`: recognize the `"*"` sentinel. -/
def isStar : RemoveEntry → Bool
  | RemoveEntry.star => true
  | RemoveEntry.files _ => false

/-- The four operation records handed to `countDiffFiles` and the sync
phases (`diff` in `main`, sync.ts lines 912-917). -/
structure Diff4 where
  add : List (String × List NewRecordItem)
  remove : List (String × RemoveEntry)
  modify : List (String × List NewRecordItem)
  fix : List (String × List NewRecordItem)
deriving DecidableEq

/-- The record `diff` that `main` builds from `collectDiff`'s output and a
fix record (sync.ts lines 912-917). -/
def mkDiff4 (raw : DiffRec) (fix : List (String × List NewRecordItem)) : Diff4 :=
  { add := raw.add, remove := raw.remove, modify := raw.modify, fix := fix }

/-- Counts returned by `countDiffFiles`. -/
structure DiffCount where
  add : Nat
  remove : Nat
  modify : Nat
  fix : Nat
deriving DecidableEq

/-- The report aggregation `countDiffFiles(diff, compareConfig)` of
sync.ts (lines 723-756).  For a `"*"` entry the code looks up
`Object.keys(diff.remove).find(k => diff.remove[k] === v)` — with
`v === "*"` that is always the FIRST key bound to the sentinel, whatever
entry is being counted — and then takes the first compare release with
that tag name. -/
def countDiffFiles (diff : Diff4) (compareConfig : Option Config) : DiffCount :=
  let addedCount := diff.add.foldl (fun acc p => acc + p.2.length) 0
  let removedCount := diff.remove.foldl
    (fun acc p =>
      match p.2 with
      | RemoveEntry.star =>
        match compareConfig with
        | some cc =>
          let starKey := (diff.remove.find? (fun q => isStar q.2)).map (fun q => q.1)
          match starKey with
          | some k =>
            match cc.releases.find? (fun r => r.tagName == k) with
            | some formerRelease => acc + formerRelease.assets.length
            | none => acc
          | none => acc
        | none => acc
      | RemoveEntry.files l => acc + l.length) 0
  let modifiedCount := diff.modify.foldl (fun acc p => acc + p.2.length) 0
  let fixedCount := diff.fix.foldl (fun acc p => acc + p.2.length) 0
  { add := addedCount, remove := removedCount, modify := modifiedCount, fix := fixedCount }

/-- `path.join` of the two relative segments used by the fix pass; for the
plain `tag` / `filename` segments occurring there it is plain
slash-concatenation. -/
def pathJoin (a b : String) : String := a ++ "/" ++ b

/-- Flatten a record into its `(tag, item)` pairs in enumeration order
(the nested `Object.entries` iteration of sync.ts lines 921-928). -/
def entriesOf (m : List (String × List NewRecordItem)) : List (String × NewRecordItem) :=
  m.foldr (fun p acc => (p.2.map (fun i => (p.1, i))) ++ acc) []

/-- The `ignoredFiles` set of the fix pass (sync.ts lines 920-931): the
relative path `tag/filename` of every entry of `add` and `modify`. -/
def ignoredFiles (d : DiffRec) : List String :=
  (entriesOf d.add ++ entriesOf d.modify).map (fun p => pathJoin p.1 p.2.filename)

/-- Inner loop of the fix pass (sync.ts lines 932-944), flattened over the
`(tag, item)` pairs of `passedModify` (the state update of one iteration
depends only on the current pair, so the nested loop flattens exactly).
`targetHas` abstracts the `rsync --dry-run --existing` probe against
`path.join(downloadTarget, tag, item.filename)`. -/
def computeFixGo (targetHas : String → Bool) (downloadTarget : String)
    (ignored : List String) :
    List (String × NewRecordItem) → List (String × List NewRecordItem) →
    List (String × List NewRecordItem)
  | [], acc => acc
  | (tag, item) :: rest, acc =>
    let relPath := pathJoin tag item.filename
    let remoteExists := targetHas (pathJoin downloadTarget relPath)
    computeFixGo targetHas downloadTarget ignored rest
      (if !remoteExists && !(ignored.contains relPath) then apush acc tag item else acc)

/-- The fix record computed by `main` when a download target is configured
(sync.ts lines 919-945): every `passedModify` item whose expected path is
absent from the live target and is not already scheduled under `add` or
`modify`. -/
def computeFix (raw : DiffRec) (downloadTarget : String) (targetHas : String → Bool) :
    List (String × List NewRecordItem) :=
  computeFixGo targetHas downloadTarget (ignoredFiles raw) (entriesOf raw.passedModify) []

/-- State of the `Mutex` bounded semaphore of sync.ts (lines 38-90):
the held count `num`, the capacity `max`, the queue of pending `lock`
continuations, and the queue of pending `waitAll` resolvers.  Task and
waiter identifiers stand for the queued closures. -/
structure MutexState where
  num : Nat
  max : Nat
  waitingLockers : List Nat
  waitingAll : List Nat
deriving DecidableEq

/-- Events against one `Mutex`: a task calling `lock`, a holder calling
`release`, a caller entering `waitAll`.  Under the single-threaded
JavaScript scheduler each guarded critical section of sync.ts runs
atomically, in invocation order; a trace of these events is exactly a
run of those critical sections. -/
inductive MEvent where
  | lock (tid : Nat)
  | release
  | waitAll (wid : Nat)
deriving DecidableEq

/-- Observable outcomes: a `lock` resolving immediately, a `lock` joining
the queue, a queued task being admitted by `release` (ownership
transfer), and a `waitAll` resolving. -/
inductive MOut where
  | grantedNow (tid : Nat)
  | queued (tid : Nat)
  | granted (tid : Nat)
  | drained (wid : Nat)
deriving DecidableEq

/-- One critical section of the `Mutex` (sync.ts lines 47-89).
`lock`: admit if `num < max`, else enqueue.  `release`: decrement with a
floor at zero; if a locker waits, pop and admit it (the count goes back
up); otherwise shift one `waitAll` resolver and, while the count is zero,
resolve and keep shifting — note that when the count is non-zero the
shifted resolver is dropped unresolved, exactly as the source does.
`waitAll`: resolve immediately when idle, else enqueue. -/
def mstep (s : MutexState) : MEvent → MutexState × List MOut
  | MEvent.lock t =>
    if s.num < s.max then ({ s with num := s.num + 1 }, [MOut.grantedNow t])
    else ({ s with waitingLockers := s.waitingLockers ++ [t] }, [MOut.queued t])
  | MEvent.release =>
    let n := s.num - 1
    match s.waitingLockers with
    | t :: rest =>
      ({ s with num := n + 1, waitingLockers := rest }, [MOut.granted t])
    | [] =>
      match s.waitingAll with
      | [] => ({ s with num := n }, [])
      | w :: ws =>
        if n = 0 then
          ({ s with num := n, waitingAll := [] }, (w :: ws).map MOut.drained)
        else
          ({ s with num := n, waitingAll := ws }, [])
  | MEvent.waitAll w =>
    if s.num = 0 then (s, [MOut.drained w])
    else ({ s with waitingAll := s.waitingAll ++ [w] }, [])

/-- Run a trace of mutex events, collecting outcomes in order. -/
def runM (s : MutexState) : List MEvent → MutexState × List MOut
  | [] => (s, [])
  | e :: es =>
    let p := mstep s e
    let q := runM p.1 es
    (q.1, p.2 ++ q.2)

/-- Fresh mutex `new Mutex(max)`. -/
def mutexInit (max : Nat) : MutexState :=
  { num := 0, max := max, waitingLockers := [], waitingAll := [] }

/-- Tasks admitted from the waiting queue, in outcome order. -/
def grantedOf (l : List MOut) : List Nat :=
  l.filterMap (fun o => match o with | MOut.granted t => some t | _ => none)

/-- Tasks that had to queue, in outcome order. -/
def queuedOf (l : List MOut) : List Nat :=
  l.filterMap (fun o => match o with | MOut.queued t => some t | _ => none)

/-- Resolved `waitAll` callers, in outcome order. -/
def drainedOf (l : List MOut) : List Nat :=
  l.filterMap (fun o => match o with | MOut.drained w => some w | _ => none)

/-- Outcome of loading the compare configuration. -/
inductive LoadCompareResult where
  | fatal (exitCode : Nat)
  | proceed (compare : Option Config)
deriving DecidableEq

/-- The compare-configuration loading step of `main` (sync.ts lines
873-894).  `comparePath` is `options.compareConfigPath ?? ""` (empty when
the flag was not supplied); `fileExists` abstracts the
`rsync --dry-run --existing` probe; `parsed` abstracts `JSON.parse` of
the fetched content (`none` when it throws).  A parse failure terminates
with exit code 1; a missing file prints a warning and leaves the compare
configuration `null`. -/
def loadCompare (comparePath : String) (fileExists : Bool) (parsed : Option Config) :
    LoadCompareResult :=
  if comparePath ≠ "" then
    if fileExists then
      match parsed with
      | some c => LoadCompareResult.proceed (some c)
      | none => LoadCompareResult.fatal 1
    else LoadCompareResult.proceed none
  else LoadCompareResult.proceed none

/-- Composition of compare loading with the diff engine as `main` runs
them (sync.ts lines 873-910): a fatal load aborts before any diff work. -/
def runDiffPipeline (comparePath : String) (fileExists : Bool) (parsed : Option Config)
    (config : Config) : Except Nat DiffRec :=
  match loadCompare comparePath fileExists parsed with
  | LoadCompareResult.fatal c => Except.error c
  | LoadCompareResult.proceed cmp => Except.ok (collectDiff config cmp)

/-- The mutable `options` object of `parseArgs` (sync.ts lines 285-295)
with its initial values; `saveConfigPath` starts unset and is modelled as
the empty string, which no flag value can be (a shifted value is
non-empty or triggers the missing-argument exit). -/
structure SyncOptions where
  repo : String
  downloadTarget : String
  downloadUrlTmpl : String
  fastFail : Bool
  fastSync : Bool
  concurrency : Nat
  buildBase : String
  wwwRootDir : String
  saveConfigPath : String
  compareConfigPath : String
deriving DecidableEq

/-- Initial `options` value of `parseArgs`. -/
def initOptions : SyncOptions :=
  { repo := "", downloadTarget := "", downloadUrlTmpl := "", fastFail := false,
    fastSync := false, concurrency := 1, buildBase := "", wwwRootDir := "",
    saveConfigPath := "", compareConfigPath := "" }

/-- Result of the argument scan: either the process exited (via `usage`,
which always calls `process.exit(1)` after printing help) or the scan
finished with options and pass-through arguments. -/
inductive ParseOutcome where
  | exited (code : Nat)
  | parsed (options : SyncOptions) (restArgs : List String)
deriving DecidableEq

/-- The argument-scanning loop of `parseArgs` (sync.ts lines 283-411)
together with the missing-`repo` check that follows it.  Every error path
goes through `usage()`, which unconditionally exits with code 1 — in the
help branch the `process.exit(0)` after `usage()` is therefore dead code.
`Number`-based validation of `--concurrency` is modelled with decimal
`String.toNat?` (the claims do not depend on the wider numeric syntax
JavaScript accepts).  The filesystem checks on the collected paths that
follow in the source are environment-dependent and outside this model. -/
def parseLoop : List String → SyncOptions → List String → ParseOutcome
  | [], opts, rest =>
    if opts.repo = "" then ParseOutcome.exited 1 else ParseOutcome.parsed opts rest
  | arg :: args, opts, rest =>
    match arg with
    | "-h" | "--help" => ParseOutcome.exited 1
    | "-o" | "--save" =>
      match args with
      | [] => ParseOutcome.exited 1
      | next :: args2 => parseLoop args2 { opts with saveConfigPath := next } rest
    | "-c" | "--compare" =>
      match args with
      | [] => ParseOutcome.exited 1
      | next :: args2 => parseLoop args2 { opts with compareConfigPath := next } rest
    | "-d" | "--download-target" =>
      match args with
      | [] => ParseOutcome.exited 1
      | next :: args2 => parseLoop args2 { opts with downloadTarget := next } rest
    | "-t" | "--url-template" =>
      match args with
      | [] => ParseOutcome.exited 1
      | next :: args2 => parseLoop args2 { opts with downloadUrlTmpl := next } rest
    | "--fast-fail" => parseLoop args { opts with fastFail := true } rest
    | "--fast-sync" => parseLoop args { opts with fastSync := true } rest
    | "--concurrency" =>
      match args with
      | [] => ParseOutcome.exited 1
      | next :: args2 =>
        match next.toNat? with
        | some n => if n = 0 then ParseOutcome.exited 1
                    else parseLoop args2 { opts with concurrency := n } rest
        | none => ParseOutcome.exited 1
    | "-b" | "--build-base" =>
      match args with
      | [] => ParseOutcome.exited 1
      | next :: args2 => parseLoop args2 { opts with buildBase := next } rest
    | "--www-root" =>
      match args with
      | [] => ParseOutcome.exited 1
      | next :: args2 => parseLoop args2 { opts with wwwRootDir := next } rest
    | other =>
      if other.data.head? = some '-' ∨ opts.repo ≠ "" then
        parseLoop args opts (rest ++ [other])
      else parseLoop args { opts with repo := other } rest

/-- Entry point of the argument scan, `parseArgs()` on `process.argv.slice(2)`. -/
def parseArgsModel (argv : List String) : ParseOutcome :=
  parseLoop argv initOptions []

/-! Helper functions used to state characterization lemmas about the
fold-based definitions above. -/

/-- Keys of an association list. -/
def keys {α : Type} (m : List (String × α)) : List String := m.map Prod.fst

/-- Iterated `apush` of a whole list of items at one key. -/
def apushAll {α : Type} (m : List (String × List α)) (k : String) (l : List α) :
    List (String × List α) :=
  l.foldl (fun m' x => apush m' k x) m

/-- Iterated `rpush` of a whole list of filenames at one key. -/
def rpushAll (m : List (String × RemoveEntry)) (k : String) (ns : List String) :
    List (String × RemoveEntry) :=
  ns.foldl (fun m' n => rpush m' k n) m

/-- Effect of `apushAll` on the value found at its key. -/
def optAppend {α : Type} (o : Option (List α)) (l : List α) : Option (List α) :=
  match o with
  | none => if l.isEmpty then none else some l
  | some v => some (v ++ l)

/-- Effect of `rpushAll` on the value found at its key. -/
def rfilesAppend (o : Option RemoveEntry) (ns : List String) : Option RemoveEntry :=
  match o with
  | none => if ns.isEmpty then none else some (RemoveEntry.files ns)
  | some (RemoveEntry.files v) => some (RemoveEntry.files (v ++ ns))
  | some RemoveEntry.star => some RemoveEntry.star

/-- `none` for the empty list, `some` otherwise. -/
def listOpt {α : Type} (l : List α) : Option (List α) :=
  if l.isEmpty then none else some l

/-- `none` for the empty list, an explicit-files removal value otherwise. -/
def removeOpt (ns : List String) : Option RemoveEntry :=
  if ns.isEmpty then none else some (RemoveEntry.files ns)

/-- Items the per-asset loop pushes to `add` for a release present in both
snapshots: current assets absent from the former release. -/
def assetAddItems (former : Release) (assets : List ReleaseAsset) : List NewRecordItem :=
  assets.filterMap (fun a =>
    match mlookup (fun x => x.name) former.assets a.name with
    | none => some (mkItem a)
    | some _ => none)

/-- Items the per-asset loop pushes to `modify`: current assets present in
the former release with a changed `(name, download_url, size, digest)`. -/
def assetModItems (former : Release) (assets : List ReleaseAsset) : List NewRecordItem :=
  assets.filterMap (fun a =>
    match mlookup (fun x => x.name) former.assets a.name with
    | none => none
    | some fa => if sameAsset a fa then none else some (mkItem a))

/-- Items the per-asset loop pushes to `passedModify`: unchanged assets. -/
def assetPassItems (former : Release) (assets : List ReleaseAsset) : List NewRecordItem :=
  assets.filterMap (fun a =>
    match mlookup (fun x => x.name) former.assets a.name with
    | none => none
    | some fa => if sameAsset a fa then some (mkItem a) else none)

/-- Names of the former release's assets that disappeared from the current
one (sync.ts line 622). -/
def removedNames (release former : Release) : List String :=
  (former.assets.filter (fun a => !(release.assets.any (fun c => c.name == a.name)))).map
    (fun a => a.name)

/-- Archive-slot contribution to `add` (the both-present-but-different
branch of sync.ts lines 685-691). -/
def archAddItems (nm cur fmr : String) : List NewRecordItem :=
  if cur ≠ fmr ∧ ¬ (cur ≠ "" ∧ fmr = "") ∧ ¬ (cur = "" ∧ fmr ≠ "") then
    [{ downloadUrl := cur, filename := "archive/" ++ nm }]
  else []

/-- Archive-slot contribution to `modify` (the newly-present branch of
sync.ts lines 672-677). -/
def archModItems (nm cur fmr : String) : List NewRecordItem :=
  if cur ≠ fmr ∧ cur ≠ "" ∧ fmr = "" then
    [{ downloadUrl := cur, filename := "archive/" ++ nm }]
  else []

/-- Archive-slot contribution to the removal list (the newly-absent branch
of sync.ts lines 678-684) — the bare synthetic name. -/
def archRemNames (nm cur fmr : String) : List String :=
  if cur ≠ fmr ∧ cur = "" ∧ fmr ≠ "" then [nm] else []

/-- Archive-slot contribution to `passedModify` (sync.ts lines 692-698). -/
def archPassItems (nm cur fmr : String) : List NewRecordItem :=
  if cur = fmr ∧ cur ≠ "" ∧ fmr ≠ "" then
    [{ downloadUrl := cur, filename := "archive/" ++ nm }]
  else []

/-- Number of items with a given filename in an optional per-tag list. -/
def countNm (o : Option (List NewRecordItem)) (nm : String) : Nat :=
  ((o.getD []).filter (fun i => i.filename == nm)).length

/-- Number of occurrences of a filename in a removal list. -/
def countName (ns : List String) (nm : String) : Nat :=
  (ns.filter (fun n => n == nm)).length

/-- Number of items with a given filename in a plain list. -/
def countItems (l : List NewRecordItem) (nm : String) : Nat :=
  (l.filter (fun i => i.filename == nm)).length

/-- The releases of the compare snapshot whose tag is absent from the
current one (`removedReleases`, sync.ts line 577). -/
def removedOf (cfg cc : Config) : List Release :=
  cc.releases.filter (fun r => !(cfg.releases.any (fun c => c.tagName == r.tagName)))

/-- The `formerReleaseMap` lookup after the removed releases were deleted
from it (sync.ts lines 568-581). -/
def formerGetOf (cfg cc : Config) : String → Option Release := fun t =>
  if (removedOf cfg cc).any (fun r => r.tagName == t) then none
  else mlookup (fun r => r.tagName) cc.releases t

/-- The removal record after the whole-tag sentinel phase (sync.ts lines
577-581). -/
def initialRemove (cfg cc : Config) : List (String × RemoveEntry) :=
  (removedOf cfg cc).foldl (fun m r => aset m r.tagName RemoveEntry.star) []

/-- The `add` binding the no-compare branch produces for one release. -/
def noCompareAdds (cfgName : String) (r : Release) : List NewRecordItem :=
  r.assets.map mkItem
    ++ [{ downloadUrl := r.zip_url, filename := "archive/" ++ archiveName cfgName r.tagName "zip" },
        { downloadUrl := r.tar_url, filename := "archive/" ++ archiveName cfgName r.tagName "tar.gz" }]

/-! Concrete snapshots used by counterexamples and witnesses. -/

/-- Current release of the archive-transition example: `zip_url` newly
present, `tar_url` newly absent. -/
def relCur1 : Release :=
  { name := "R1", tagName := "v1", assets := [], tar_url := "", zip_url := "u" }

/-- Former release of the archive-transition example. -/
def relFmr1 : Release :=
  { name := "R1", tagName := "v1", assets := [], tar_url := "w", zip_url := "" }

/-- Current snapshot of the archive-transition example. -/
def cfgCur1 : Config := { name := "repo", releases := [relCur1] }

/-- Former snapshot of the archive-transition example. -/
def cfgCmp1 : Config := { name := "repo", releases := [relFmr1] }

/-- A release with no assets and both archive slots absent. -/
def relBare : Release :=
  { name := "R2", tagName := "v2", assets := [], tar_url := "", zip_url := "" }

/-- Snapshot holding only `relBare`. -/
def cfgBare : Config := { name := "repo", releases := [relBare] }

/-- A compare snapshot with no releases at all. -/
def cfgEmpty : Config := { name := "repo", releases := [] }

/-- A sample asset. -/
def assetX : ReleaseAsset :=
  { name := "x.bin", size := 7, digest := "dx", download_url := "ux" }

/-- A sample asset. -/
def assetY : ReleaseAsset :=
  { name := "y.bin", size := 8, digest := "dy", download_url := "uy" }

/-- A sample asset. -/
def assetZ : ReleaseAsset :=
  { name := "z.bin", size := 9, digest := "dz", download_url := "uz" }

/-- A sample asset. -/
def assetW : ReleaseAsset :=
  { name := "w.bin", size := 10, digest := "dw", download_url := "uw" }

/-- Compare-only release with one asset, tag `t1`. -/
def relT1 : Release :=
  { name := "T1", tagName := "t1", assets := [assetX], tar_url := "", zip_url := "" }

/-- Compare-only release with three assets, tag `t2`. -/
def relT2 : Release :=
  { name := "T2", tagName := "t2", assets := [assetY, assetZ, assetW], tar_url := "", zip_url := "" }

/-- Compare snapshot with the two compare-only releases. -/
def cfgStars : Config := { name := "repo", releases := [relT1, relT2] }

/-- A release with one asset and both archive slots present. -/
def relSelf : Release :=
  { name := "RS", tagName := "v9", assets := [assetX], tar_url := "tu", zip_url := "zu" }

/-- Snapshot holding only `relSelf`. -/
def cfgSelf : Config := { name := "repo", releases := [relSelf] }

/-! Association-list lemmas. -/

theorem afind_aset_self {α : Type} (m : List (String × α)) (k : String) (v : α) :
    afind (aset m k v) k = some v := by
  induction m with
  | nil => simp [aset, afind]
  | cons p rest ih =>
    by_cases h : p.1 = k
    · simp [aset, afind, h]
    · simp [aset, afind, h, ih]

theorem afind_aset_ne {α : Type} (m : List (String × α)) (k t : String) (v : α)
    (h : k ≠ t) : afind (aset m k v) t = afind m t := by
  induction m with
  | nil => simp [aset, afind, h]
  | cons p rest ih =>
    by_cases hp : p.1 = k
    · have hpt : p.1 ≠ t := by rw [hp]; exact h
      simp [aset, afind, hp, hpt, h]
    · by_cases hq : p.1 = t
      · rcases p with ⟨k', v'⟩
        simp only at hq
        subst hq
        simp [aset, afind, hp]
      · simp [aset, afind, hp, hq, ih]

theorem afind_apush_self {α : Type} (m : List (String × List α)) (k : String) (x : α) :
    afind (apush m k x) k = some ((afind m k).getD [] ++ [x]) := by
  induction m with
  | nil => simp [apush, afind]
  | cons p rest ih =>
    by_cases h : p.1 = k
    · rcases p with ⟨k', l⟩
      simp only at h
      subst h
      simp [apush, afind]
    · simp [apush, afind, h, ih]

theorem afind_apush_ne {α : Type} (m : List (String × List α)) (k t : String) (x : α)
    (h : k ≠ t) : afind (apush m k x) t = afind m t := by
  induction m with
  | nil => simp [apush, afind, h]
  | cons p rest ih =>
    by_cases hp : p.1 = k
    · have hpt : p.1 ≠ t := by rw [hp]; exact h
      rcases p with ⟨k', l⟩
      simp only at hp
      subst hp
      simp only at hpt
      simp [apush, afind, hpt, h]
    · by_cases hq : p.1 = t
      · rcases p with ⟨k', l'⟩
        simp only at hq
        subst hq
        simp [apush, afind, hp]
      · simp [apush, afind, hp, hq, ih]

theorem afind_rpush_self (m : List (String × RemoveEntry)) (k : String) (n : String) :
    afind (rpush m k n) k =
      some (match afind m k with
            | none => RemoveEntry.files [n]
            | some RemoveEntry.star => RemoveEntry.star
            | some (RemoveEntry.files l) => RemoveEntry.files (l ++ [n])) := by
  induction m with
  | nil => simp [rpush, afind]
  | cons p rest ih =>
    by_cases h : p.1 = k
    · rcases p with ⟨k', v⟩
      simp only at h
      subst h
      cases v <;> simp [rpush, afind]
    · simp [rpush, afind, h, ih]

theorem afind_rpush_ne (m : List (String × RemoveEntry)) (k t : String) (n : String)
    (h : k ≠ t) : afind (rpush m k n) t = afind m t := by
  induction m with
  | nil => simp [rpush, afind, h]
  | cons p rest ih =>
    by_cases hp : p.1 = k
    · have hpt : p.1 ≠ t := by rw [hp]; exact h
      rcases p with ⟨k', v⟩
      simp only at hp
      subst hp
      simp only at hpt
      simp [rpush, afind, hpt]
    · by_cases hq : p.1 = t
      · rcases p with ⟨k', v⟩
        simp only at hq
        subst hq
        simp [rpush, afind, hp]
      · simp [rpush, afind, hp, hq, ih]

theorem apushAll_nil {α : Type} (m : List (String × List α)) (k : String) :
    apushAll m k [] = m := rfl

theorem apushAll_cons {α : Type} (m : List (String × List α)) (k : String) (x : α)
    (l : List α) : apushAll m k (x :: l) = apushAll (apush m k x) k l := rfl

theorem apushAll_append {α : Type} (m : List (String × List α)) (k : String)
    (l1 l2 : List α) : apushAll m k (l1 ++ l2) = apushAll (apushAll m k l1) k l2 := by
  simp [apushAll, List.foldl_append]

theorem afind_apushAll_self {α : Type} (m : List (String × List α)) (k : String)
    (l : List α) : afind (apushAll m k l) k = optAppend (afind m k) l := by
  induction l generalizing m with
  | nil =>
    cases h : afind m k with
    | none => simp [apushAll_nil, optAppend, h]
    | some v => simp [apushAll_nil, optAppend, h]
  | cons x l ih =>
    rw [apushAll_cons, ih, afind_apush_self]
    cases h : afind m k with
    | none => simp [optAppend]
    | some v => simp [optAppend]

theorem afind_apushAll_ne {α : Type} (m : List (String × List α)) (k t : String)
    (l : List α) (h : k ≠ t) : afind (apushAll m k l) t = afind m t := by
  induction l generalizing m with
  | nil => simp [apushAll_nil]
  | cons x l ih => rw [apushAll_cons, ih, afind_apush_ne _ _ _ _ h]

theorem rpushAll_nil (m : List (String × RemoveEntry)) (k : String) :
    rpushAll m k [] = m := rfl

theorem rpushAll_cons (m : List (String × RemoveEntry)) (k : String) (n : String)
    (ns : List String) : rpushAll m k (n :: ns) = rpushAll (rpush m k n) k ns := rfl

theorem afind_rpushAll_self (m : List (String × RemoveEntry)) (k : String)
    (ns : List String) : afind (rpushAll m k ns) k = rfilesAppend (afind m k) ns := by
  induction ns generalizing m with
  | nil =>
    cases h : afind m k with
    | none => simp [rpushAll_nil, rfilesAppend, h]
    | some v => cases v <;> simp [rpushAll_nil, rfilesAppend, h]
  | cons n ns ih =>
    rw [rpushAll_cons, ih, afind_rpush_self]
    cases h : afind m k with
    | none => simp [rfilesAppend]
    | some v => cases v <;> simp [rfilesAppend]

theorem afind_rpushAll_ne (m : List (String × RemoveEntry)) (k t : String)
    (ns : List String) (h : k ≠ t) : afind (rpushAll m k ns) t = afind m t := by
  induction ns generalizing m with
  | nil => simp [rpushAll_nil]
  | cons n ns ih => rw [rpushAll_cons, ih, afind_rpush_ne _ _ _ _ h]

theorem afind_eq_none_iff {α : Type} (m : List (String × α)) (t : String) :
    afind m t = none ↔ ∀ p ∈ m, p.1 ≠ t := by
  induction m with
  | nil => simp [afind]
  | cons p rest ih =>
    by_cases h : p.1 = t
    · simp [afind, h]
    · simp [afind, h, ih]

theorem aset_fresh {α : Type} (m : List (String × α)) (k : String) (v : α)
    (h : k ∉ keys m) : aset m k v = m ++ [(k, v)] := by
  induction m with
  | nil => simp [aset]
  | cons p rest ih =>
    simp only [keys, List.map_cons, List.mem_cons] at h
    push_neg at h
    have hp : p.1 ≠ k := fun hh => h.1 hh.symm
    simp [aset, hp, ih (by simpa [keys] using h.2)]

theorem apush_fresh_append {α : Type} (m : List (String × List α)) (k : String)
    (l : List α) (x : α) (h : k ∉ keys m) :
    apush (m ++ [(k, l)]) k x = m ++ [(k, l ++ [x])] := by
  induction m with
  | nil => simp [apush]
  | cons p rest ih =>
    simp only [keys, List.map_cons, List.mem_cons] at h
    push_neg at h
    have hp : p.1 ≠ k := fun hh => h.1 hh.symm
    simp [apush, hp, ih (by simpa [keys] using h.2)]

theorem entriesOf_nil : entriesOf [] = [] := rfl

theorem entriesOf_cons (p : String × List NewRecordItem)
    (m : List (String × List NewRecordItem)) :
    entriesOf (p :: m) = p.2.map (fun i => (p.1, i)) ++ entriesOf m := rfl

theorem mem_entriesOf_apush (m : List (String × List NewRecordItem)) (k : String)
    (v : NewRecordItem) (x : String × NewRecordItem) :
    x ∈ entriesOf (apush m k v) ↔ x ∈ entriesOf m ∨ x = (k, v) := by
  induction m with
  | nil => simp [apush, entriesOf]
  | cons p rest ih =>
    by_cases h : p.1 = k
    · rcases p with ⟨k', l⟩
      simp only at h
      subst h
      clear ih
      have hpush : apush ((k', l) :: rest) k' v = (k', l ++ [v]) :: rest := by
        simp [apush]
      rw [hpush, entriesOf_cons, entriesOf_cons]
      simp only [List.map_append, List.mem_append, List.map_cons, List.map_nil]
      rw [List.mem_singleton]
      tauto
    · simp only [apush, if_neg h, entriesOf_cons, List.mem_append, ih]
      tauto

theorem mem_entriesOf_apushAll (m : List (String × List NewRecordItem)) (k : String)
    (l : List NewRecordItem) (x : String × NewRecordItem) :
    x ∈ entriesOf (apushAll m k l) ↔ x ∈ entriesOf m ∨ (x.1 = k ∧ x.2 ∈ l) := by
  induction l generalizing m with
  | nil => simp [apushAll_nil]
  | cons v l ih =>
    rw [apushAll_cons, ih, mem_entriesOf_apush]
    rcases x with ⟨a, b⟩
    simp only [List.mem_cons, Prod.mk.injEq]
    constructor
    · rintro ((hx | ⟨rfl, rfl⟩) | ⟨rfl, hb⟩)
      · exact Or.inl hx
      · exact Or.inr ⟨rfl, Or.inl rfl⟩
      · exact Or.inr ⟨rfl, Or.inr hb⟩
    · rintro (hx | ⟨rfl, (rfl | hb)⟩)
      · exact Or.inl (Or.inl hx)
      · exact Or.inl (Or.inr ⟨rfl, rfl⟩)
      · exact Or.inr ⟨rfl, hb⟩

theorem mem_entriesOf_key (m : List (String × List NewRecordItem)) (t : String)
    (i : NewRecordItem) (h : (t, i) ∈ entriesOf m) : ∃ p ∈ m, p.1 = t := by
  induction m with
  | nil => simp [entriesOf] at h
  | cons p rest ih =>
    rw [entriesOf_cons, List.mem_append] at h
    rcases h with h | h
    · rcases List.mem_map.mp h with ⟨j, _, hj⟩
      exact ⟨p, List.mem_cons_self _ _, (Prod.mk.injEq _ _ _ _).mp hj.symm |>.1.symm⟩
    · rcases ih h with ⟨q, hq, hqt⟩
      exact ⟨q, List.mem_cons_of_mem _ hq, hqt⟩

theorem mlookup_eq_none {α : Type} (f : α → String) (l : List α) (k : String)
    (h : ∀ x ∈ l, f x ≠ k) : mlookup f l k = none := by
  induction l with
  | nil => rfl
  | cons x rest ih =>
    have hx : f x ≠ k := h x (List.mem_cons_self _ _)
    have hr := ih (fun y hy => h y (List.mem_cons_of_mem _ hy))
    simp [mlookup, hr, hx]

theorem mlookup_nodup {α : Type} (f : α → String) (l : List α) (k : String) (x : α)
    (hnd : (l.map f).Nodup) (hx : x ∈ l) (hk : f x = k) : mlookup f l k = some x := by
  induction l with
  | nil => simp at hx
  | cons y rest ih =>
    simp only [List.map_cons, List.nodup_cons] at hnd
    rcases List.mem_cons.mp hx with rfl | hx'
    · have hr : mlookup f rest k = none := by
        apply mlookup_eq_none
        intro z hz hzk
        have hm : f x ∈ List.map f rest := by
          rw [hk, ← hzk]
          exact List.mem_map_of_mem f hz
        exact hnd.1 hm
      simp [mlookup, hr, hk]
    · have hr := ih hnd.2 hx'
      simp [mlookup, hr]

/-! Characterizations of the `collectDiff` step functions. -/

theorem rpushAll_append (m : List (String × RemoveEntry)) (k : String)
    (l1 l2 : List String) : rpushAll m k (l1 ++ l2) = rpushAll (rpushAll m k l1) k l2 := by
  simp [rpushAll, List.foldl_append]

theorem diffArchiveStep_eq (cfgName tag cur fmr ext : String) (rec : DiffRec) :
    diffArchiveStep cfgName tag cur fmr ext rec =
      { add := apushAll rec.add tag (archAddItems (archiveName cfgName tag ext) cur fmr),
        remove := rpushAll rec.remove tag (archRemNames (archiveName cfgName tag ext) cur fmr),
        modify := apushAll rec.modify tag (archModItems (archiveName cfgName tag ext) cur fmr),
        passedModify :=
          apushAll rec.passedModify tag (archPassItems (archiveName cfgName tag ext) cur fmr) } := by
  by_cases h1 : cur = fmr
  · by_cases h2 : cur ≠ "" ∧ fmr ≠ ""
    · simp [diffArchiveStep, archAddItems, archModItems, archRemNames, archPassItems,
        h1, h2, apushAll, rpushAll]
    · by_cases hf : fmr = ""
      · simp [diffArchiveStep, archAddItems, archModItems, archRemNames, archPassItems,
          h1, h2, hf, apushAll, rpushAll]
      · simp [diffArchiveStep, archAddItems, archModItems, archRemNames, archPassItems,
          h1, h2, hf, apushAll, rpushAll]
  · by_cases h2 : cur ≠ "" ∧ fmr = ""
    · simp [diffArchiveStep, archAddItems, archModItems, archRemNames, archPassItems,
        h1, h2, apushAll, rpushAll]
    · by_cases h3 : cur = "" ∧ fmr ≠ ""
      · have hf2 : ¬ ("" = fmr) := fun hh => h3.2 hh.symm
        simp [diffArchiveStep, archAddItems, archModItems, archRemNames, archPassItems,
          h1, h2, h3, hf2, apushAll, rpushAll]
      · simp [diffArchiveStep, archAddItems, archModItems, archRemNames, archPassItems,
          h1, h2, h3, apushAll, rpushAll]

theorem foldl_diffAssetStep (tag : String) (former : Release)
    (assets : List ReleaseAsset) (rec : DiffRec) :
    assets.foldl (diffAssetStep tag former) rec =
      { add := apushAll rec.add tag (assetAddItems former assets),
        remove := rec.remove,
        modify := apushAll rec.modify tag (assetModItems former assets),
        passedModify := apushAll rec.passedModify tag (assetPassItems former assets) } := by
  induction assets generalizing rec with
  | nil => simp [assetAddItems, assetModItems, assetPassItems, apushAll_nil]
  | cons a as ih =>
    rw [List.foldl_cons, ih]
    cases hm : mlookup (fun x => x.name) former.assets a.name with
    | none =>
      simp [diffAssetStep, hm, assetAddItems, assetModItems, assetPassItems,
        List.filterMap_cons, apushAll_cons]
    | some fa =>
      by_cases hs : sameAsset a fa
      · simp [diffAssetStep, hm, hs, assetAddItems, assetModItems, assetPassItems,
          List.filterMap_cons, apushAll_cons]
      · simp [diffAssetStep, hm, hs, assetAddItems, assetModItems, assetPassItems,
          List.filterMap_cons, apushAll_cons]

theorem stepRelease_some_eq (cfgName : String) (fg : String → Option Release)
    (rec : DiffRec) (r former : Release) (h : fg r.tagName = some former) :
    stepRelease cfgName fg rec r =
      { add := apushAll rec.add r.tagName
          (assetAddItems former r.assets
            ++ archAddItems (archiveName cfgName r.tagName "zip") r.zip_url former.zip_url
            ++ archAddItems (archiveName cfgName r.tagName "tar.gz") r.tar_url former.tar_url),
        remove := rpushAll
          (if removedNames r former = [] then rec.remove
           else aset rec.remove r.tagName (RemoveEntry.files (removedNames r former)))
          r.tagName
          (archRemNames (archiveName cfgName r.tagName "zip") r.zip_url former.zip_url
            ++ archRemNames (archiveName cfgName r.tagName "tar.gz") r.tar_url former.tar_url),
        modify := apushAll rec.modify r.tagName
          (assetModItems former r.assets
            ++ archModItems (archiveName cfgName r.tagName "zip") r.zip_url former.zip_url
            ++ archModItems (archiveName cfgName r.tagName "tar.gz") r.tar_url former.tar_url),
        passedModify := apushAll rec.passedModify r.tagName
          (assetPassItems former r.assets
            ++ archPassItems (archiveName cfgName r.tagName "zip") r.zip_url former.zip_url
            ++ archPassItems (archiveName cfgName r.tagName "tar.gz") r.tar_url former.tar_url) } := by
  have hlen : (former.assets.filter
      (fun a => !(r.assets.any (fun c => c.name == a.name)))).length > 0
      ↔ ¬ (removedNames r former = []) := by
    rw [removedNames, List.map_eq_nil_iff]
    exact List.length_pos
  simp only [stepRelease, h]
  by_cases hrem : removedNames r former = []
  · have h0 : ¬ ((former.assets.filter
        (fun a => !(r.assets.any (fun c => c.name == a.name)))).length > 0) := by
      rw [hlen]; exact fun hc => hc hrem
    simp only [if_neg h0, if_pos hrem]
    rw [foldl_diffAssetStep, diffArchiveStep_eq, diffArchiveStep_eq]
    simp [removedNames, apushAll_append, rpushAll_append]
  · have h0 : (former.assets.filter
        (fun a => !(r.assets.any (fun c => c.name == a.name)))).length > 0 := by
      rw [hlen]; exact hrem
    simp only [if_pos h0, if_neg hrem]
    rw [foldl_diffAssetStep, diffArchiveStep_eq, diffArchiveStep_eq]
    simp [removedNames, apushAll_append, rpushAll_append]

theorem stepRelease_none_eq (cfgName : String) (fg : String → Option Release)
    (rec : DiffRec) (r : Release) (h : fg r.tagName = none) :
    stepRelease cfgName fg rec r =
      if (newReleaseAdds cfgName r).length > 0 then
        { rec with add := aset rec.add r.tagName (newReleaseAdds cfgName r) }
      else rec := by
  simp [stepRelease, h]

theorem stepRelease_afind_ne (cfgName : String) (fg : String → Option Release)
    (rec : DiffRec) (r : Release) (t : String) (h : r.tagName ≠ t) :
    afind (stepRelease cfgName fg rec r).add t = afind rec.add t ∧
    afind (stepRelease cfgName fg rec r).remove t = afind rec.remove t ∧
    afind (stepRelease cfgName fg rec r).modify t = afind rec.modify t ∧
    afind (stepRelease cfgName fg rec r).passedModify t = afind rec.passedModify t := by
  cases hm : fg r.tagName with
  | none =>
    rw [stepRelease_none_eq cfgName fg rec r hm]
    by_cases hl : (newReleaseAdds cfgName r).length > 0
    · simp [hl, afind_aset_ne _ _ _ _ h]
    · simp [hl]
  | some f =>
    rw [stepRelease_some_eq cfgName fg rec r f hm]
    refine ⟨afind_apushAll_ne _ _ _ _ h, ?_, afind_apushAll_ne _ _ _ _ h,
      afind_apushAll_ne _ _ _ _ h⟩
    rw [afind_rpushAll_ne _ _ _ _ h]
    by_cases hrem : removedNames r f = []
    · simp [hrem]
    · simp [hrem, afind_aset_ne _ _ _ _ h]

theorem foldl_stepRelease_afind_ne (cfgName : String) (fg : String → Option Release)
    (l : List Release) (rec : DiffRec) (t : String) (h : ∀ r ∈ l, r.tagName ≠ t) :
    afind (l.foldl (stepRelease cfgName fg) rec).add t = afind rec.add t ∧
    afind (l.foldl (stepRelease cfgName fg) rec).remove t = afind rec.remove t ∧
    afind (l.foldl (stepRelease cfgName fg) rec).modify t = afind rec.modify t ∧
    afind (l.foldl (stepRelease cfgName fg) rec).passedModify t = afind rec.passedModify t := by
  induction l generalizing rec with
  | nil => simp
  | cons r l ih =>
    rw [List.foldl_cons]
    have hr := stepRelease_afind_ne cfgName fg rec r t (h r (List.mem_cons_self _ _))
    have hl := ih (stepRelease cfgName fg rec r) (fun x hx => h x (List.mem_cons_of_mem _ hx))
    exact ⟨hl.1.trans hr.1, hl.2.1.trans hr.2.1, hl.2.2.1.trans hr.2.2.1,
      hl.2.2.2.trans hr.2.2.2⟩

theorem afind_starFold (rs : List Release) (m0 : List (String × RemoveEntry)) (t : String) :
    afind (rs.foldl (fun m r => aset m r.tagName RemoveEntry.star) m0) t =
      if rs.any (fun r => r.tagName == t) then some RemoveEntry.star else afind m0 t := by
  induction rs generalizing m0 with
  | nil => simp
  | cons r rs ih =>
    rw [List.foldl_cons, ih]
    by_cases hr : r.tagName = t
    · by_cases hany : rs.any (fun x => x.tagName == t)
      · simp [hany, hr]
      · simp [hany, hr, afind_aset_self]
    · by_cases hany : rs.any (fun x => x.tagName == t)
      · simp [hany, hr]
      · simp [hany, hr, afind_aset_ne _ _ _ _ hr]

theorem tags_ne_of_nodup (l1 l2 : List Release) (r : Release)
    (hn : ((l1 ++ r :: l2).map (fun x => x.tagName)).Nodup) :
    (∀ x ∈ l1, x.tagName ≠ r.tagName) ∧ (∀ x ∈ l2, x.tagName ≠ r.tagName) := by
  rw [List.map_append, List.map_cons, List.nodup_append] at hn
  rcases hn with ⟨hn1, hn2, hdisj⟩
  rw [List.nodup_cons] at hn2
  constructor
  · intro x hx heq
    exact hdisj (List.mem_map_of_mem _ hx) (by rw [heq]; exact List.mem_cons_self _ _)
  · intro x hx heq
    exact hn2.1 (heq ▸ List.mem_map_of_mem (fun y => y.tagName) hx)

theorem optAppend_none {α : Type} (l : List α) : optAppend none l = listOpt l := rfl

theorem collectDiff_some_eq (cfg cc : Config) :
    collectDiff cfg (some cc) =
      cfg.releases.foldl (stepRelease cfg.name (formerGetOf cfg cc))
        { add := [], remove := initialRemove cfg cc, modify := [], passedModify := [] } := rfl

theorem afind_initialRemove (cfg cc : Config) (t : String)
    (h : (removedOf cfg cc).any (fun x => x.tagName == t) = false) :
    afind (initialRemove cfg cc) t = none := by
  rw [initialRemove, afind_starFold]
  simp [h, afind]

theorem formerGetOf_eq_some (cfg cc : Config) (f : Release) (t : String)
    (hn2 : (cc.releases.map (fun x => x.tagName)).Nodup)
    (hf : f ∈ cc.releases) (hft : f.tagName = t)
    (h : (removedOf cfg cc).any (fun x => x.tagName == t) = false) :
    formerGetOf cfg cc t = some f := by
  rw [formerGetOf]
  simp only [h]
  simp
  exact mlookup_nodup (fun x => x.tagName) cc.releases t f hn2 hf hft

theorem removedOf_any_false (cfg cc : Config) (t : String)
    (hcur : cfg.releases.any (fun y => y.tagName == t) = true) :
    (removedOf cfg cc).any (fun x => x.tagName == t) = false := by
  rw [List.any_eq_false]
  intro x hx
  rcases List.mem_filter.mp hx with ⟨_, hxf⟩
  intro hxt
  rw [beq_iff_eq] at hxt
  rw [hxt, hcur] at hxf
  simp at hxf

/-- Value of every field of `collectDiff cfg (some cc)` at a tag present in
both snapshots, assuming each snapshot has pairwise-distinct tag names. -/
theorem collectDiff_find_both (cfg cc : Config) (r f : Release) (t : String)
    (hn1 : (cfg.releases.map (fun x => x.tagName)).Nodup)
    (hn2 : (cc.releases.map (fun x => x.tagName)).Nodup)
    (hr : r ∈ cfg.releases) (hrt : r.tagName = t)
    (hf : f ∈ cc.releases) (hft : f.tagName = t) :
    afind (collectDiff cfg (some cc)).add t =
      listOpt (assetAddItems f r.assets
        ++ archAddItems (archiveName cfg.name t "zip") r.zip_url f.zip_url
        ++ archAddItems (archiveName cfg.name t "tar.gz") r.tar_url f.tar_url) ∧
    afind (collectDiff cfg (some cc)).remove t =
      removeOpt (removedNames r f
        ++ archRemNames (archiveName cfg.name t "zip") r.zip_url f.zip_url
        ++ archRemNames (archiveName cfg.name t "tar.gz") r.tar_url f.tar_url) ∧
    afind (collectDiff cfg (some cc)).modify t =
      listOpt (assetModItems f r.assets
        ++ archModItems (archiveName cfg.name t "zip") r.zip_url f.zip_url
        ++ archModItems (archiveName cfg.name t "tar.gz") r.tar_url f.tar_url) ∧
    afind (collectDiff cfg (some cc)).passedModify t =
      listOpt (assetPassItems f r.assets
        ++ archPassItems (archiveName cfg.name t "zip") r.zip_url f.zip_url
        ++ archPassItems (archiveName cfg.name t "tar.gz") r.tar_url f.tar_url) := by
  have hcur : cfg.releases.any (fun y => y.tagName == t) = true := by
    rw [List.any_eq_true]
    exact ⟨r, hr, by simp [hrt]⟩
  have hremAny := removedOf_any_false cfg cc t hcur
  have hfg := formerGetOf_eq_some cfg cc f t hn2 hf hft hremAny
  rcases List.append_of_mem hr with ⟨l1, l2, hsplit⟩
  have hn1' := hsplit ▸ hn1
  rcases tags_ne_of_nodup l1 l2 r hn1' with ⟨hne1, hne2⟩
  have hne1t : ∀ x ∈ l1, x.tagName ≠ t := fun x hx => hrt ▸ hne1 x hx
  have hne2t : ∀ x ∈ l2, x.tagName ≠ t := fun x hx => hrt ▸ hne2 x hx
  rw [collectDiff_some_eq, hsplit, List.foldl_append, List.foldl_cons]
  set rec1 : DiffRec :=
    { add := [], remove := initialRemove cfg cc, modify := [], passedModify := [] }
    with hrec1
  have hbase := foldl_stepRelease_afind_ne cfg.name (formerGetOf cfg cc) l1 rec1 t hne1t
  have hbase_rem : afind rec1.remove t = none := afind_initialRemove cfg cc t hremAny
  have hstep := stepRelease_some_eq cfg.name (formerGetOf cfg cc)
    (l1.foldl (stepRelease cfg.name (formerGetOf cfg cc)) rec1) r f (by rw [hrt]; exact hfg)
  have hafter := foldl_stepRelease_afind_ne cfg.name (formerGetOf cfg cc) l2
    (stepRelease cfg.name (formerGetOf cfg cc)
      (l1.foldl (stepRelease cfg.name (formerGetOf cfg cc)) rec1) r) t hne2t
  refine ⟨?_, ?_, ?_, ?_⟩
  · rw [hafter.1, hstep, hrt]
    simp only
    rw [afind_apushAll_self, hbase.1]
    rfl
  · rw [hafter.2.1, hstep, hrt]
    simp only
    rw [afind_rpushAll_self]
    by_cases hrem : removedNames r f = []
    · rw [if_pos hrem, hbase.2.1, hbase_rem, hrem]
      simp [rfilesAppend, removeOpt]
    · rw [if_neg hrem, afind_aset_self]
      simp [rfilesAppend, removeOpt, hrem, List.append_assoc]
  · rw [hafter.2.2.1, hstep, hrt]
    simp only
    rw [afind_apushAll_self, hbase.2.2.1]
    rfl
  · rw [hafter.2.2.2, hstep, hrt]
    simp only
    rw [afind_apushAll_self, hbase.2.2.2]
    rfl

/-- Value of every field of `collectDiff cfg (some cc)` at a tag present
only in the current snapshot: an entirely new release. -/
theorem collectDiff_find_new (cfg cc : Config) (r : Release) (t : String)
    (hn1 : (cfg.releases.map (fun x => x.tagName)).Nodup)
    (hr : r ∈ cfg.releases) (hrt : r.tagName = t)
    (hnf : ∀ x ∈ cc.releases, x.tagName ≠ t) :
    afind (collectDiff cfg (some cc)).add t = listOpt (newReleaseAdds cfg.name r) ∧
    afind (collectDiff cfg (some cc)).remove t = none ∧
    afind (collectDiff cfg (some cc)).modify t = none ∧
    afind (collectDiff cfg (some cc)).passedModify t = none := by
  have hcur : cfg.releases.any (fun y => y.tagName == t) = true := by
    rw [List.any_eq_true]
    exact ⟨r, hr, by simp [hrt]⟩
  have hremAny := removedOf_any_false cfg cc t hcur
  have hfg : formerGetOf cfg cc t = none := by
    rw [formerGetOf]
    simp only [hremAny]
    simp
    exact mlookup_eq_none (fun x => x.tagName) cc.releases t hnf
  rcases List.append_of_mem hr with ⟨l1, l2, hsplit⟩
  have hn1' := hsplit ▸ hn1
  rcases tags_ne_of_nodup l1 l2 r hn1' with ⟨hne1, hne2⟩
  have hne1t : ∀ x ∈ l1, x.tagName ≠ t := fun x hx => hrt ▸ hne1 x hx
  have hne2t : ∀ x ∈ l2, x.tagName ≠ t := fun x hx => hrt ▸ hne2 x hx
  rw [collectDiff_some_eq, hsplit, List.foldl_append, List.foldl_cons]
  set rec1 : DiffRec :=
    { add := [], remove := initialRemove cfg cc, modify := [], passedModify := [] }
    with hrec1
  have hbase := foldl_stepRelease_afind_ne cfg.name (formerGetOf cfg cc) l1 rec1 t hne1t
  have hbase_rem : afind rec1.remove t = none := afind_initialRemove cfg cc t hremAny
  have hstep := stepRelease_none_eq cfg.name (formerGetOf cfg cc)
    (l1.foldl (stepRelease cfg.name (formerGetOf cfg cc)) rec1) r (by rw [hrt]; exact hfg)
  have hafter := foldl_stepRelease_afind_ne cfg.name (formerGetOf cfg cc) l2
    (stepRelease cfg.name (formerGetOf cfg cc)
      (l1.foldl (stepRelease cfg.name (formerGetOf cfg cc)) rec1) r) t hne2t
  by_cases hlen : (newReleaseAdds cfg.name r).length > 0
  · rw [if_pos hlen] at hstep
    have hno : ¬ ((newReleaseAdds cfg.name r).isEmpty = true) := by
      have hne := List.length_pos.mp hlen
      simp [List.isEmpty_iff, hne]
    refine ⟨?_, ?_, ?_, ?_⟩
    · rw [hafter.1, hstep]
      simp only
      rw [hrt, afind_aset_self, listOpt, if_neg hno]
    · rw [hafter.2.1, hstep]
      simp only
      exact hbase.2.1.trans hbase_rem
    · rw [hafter.2.2.1, hstep]
      simp only
      exact hbase.2.2.1
    · rw [hafter.2.2.2, hstep]
      simp only
      exact hbase.2.2.2
  · rw [if_neg hlen] at hstep
    have hemp : newReleaseAdds cfg.name r = [] := by
      rcases h : newReleaseAdds cfg.name r with _ | ⟨x, xs⟩
      · rfl
      · rw [h] at hlen; simp at hlen
    refine ⟨?_, ?_, ?_, ?_⟩
    · rw [hafter.1, hstep, hemp]
      exact hbase.1
    · rw [hafter.2.1, hstep]
      exact hbase.2.1.trans hbase_rem
    · rw [hafter.2.2.1, hstep]
      exact hbase.2.2.1
    · rw [hafter.2.2.2, hstep]
      exact hbase.2.2.2

/-! Counting lemmas. -/

theorem countNm_listOpt (l : List NewRecordItem) (nm : String) :
    countNm (listOpt l) nm = countItems l nm := by
  rcases l with _ | ⟨x, xs⟩
  · rfl
  · rfl

theorem countItems_append (l1 l2 : List NewRecordItem) (nm : String) :
    countItems (l1 ++ l2) nm = countItems l1 nm + countItems l2 nm := by
  simp [countItems, List.filter_append]

theorem countName_append (l1 l2 : List String) (nm : String) :
    countName (l1 ++ l2) nm = countName l1 nm + countName l2 nm := by
  simp [countName, List.filter_append]

theorem countItems_eq_zero (l : List NewRecordItem) (nm : String)
    (h : ∀ i ∈ l, i.filename ≠ nm) : countItems l nm = 0 := by
  rw [countItems, List.length_eq_zero, List.filter_eq_nil_iff]
  intro i hi
  simp [h i hi]

theorem countName_eq_zero (l : List String) (nm : String)
    (h : ∀ n ∈ l, n ≠ nm) : countName l nm = 0 := by
  rw [countName, List.length_eq_zero, List.filter_eq_nil_iff]
  intro n hn
  simp [h n hn]

theorem countItems_singleton_self (u nm : String) :
    countItems [{ downloadUrl := u, filename := nm }] nm = 1 := by
  simp [countItems]

theorem assetAddItems_names (f : Release) (as : List ReleaseAsset) (i : NewRecordItem)
    (h : i ∈ assetAddItems f as) : ∃ a ∈ as, i.filename = a.name := by
  rw [assetAddItems, List.mem_filterMap] at h
  rcases h with ⟨a, ha, hg⟩
  cases hm : mlookup (fun x => x.name) f.assets a.name with
  | none =>
    rw [hm] at hg
    exact ⟨a, ha, by rw [← Option.some_inj.mp hg]; rfl⟩
  | some fa => rw [hm] at hg; simp at hg

theorem assetModItems_names (f : Release) (as : List ReleaseAsset) (i : NewRecordItem)
    (h : i ∈ assetModItems f as) : ∃ a ∈ as, i.filename = a.name := by
  rw [assetModItems, List.mem_filterMap] at h
  rcases h with ⟨a, ha, hg⟩
  cases hm : mlookup (fun x => x.name) f.assets a.name with
  | none => rw [hm] at hg; simp at hg
  | some fa =>
    rw [hm] at hg
    by_cases hs : sameAsset a fa
    · simp [hs] at hg
    · simp only [hs, if_neg hs] at hg
      exact ⟨a, ha, by rw [← Option.some_inj.mp hg]; rfl⟩

theorem assetPassItems_names (f : Release) (as : List ReleaseAsset) (i : NewRecordItem)
    (h : i ∈ assetPassItems f as) : ∃ a ∈ as, i.filename = a.name := by
  rw [assetPassItems, List.mem_filterMap] at h
  rcases h with ⟨a, ha, hg⟩
  cases hm : mlookup (fun x => x.name) f.assets a.name with
  | none => rw [hm] at hg; simp at hg
  | some fa =>
    rw [hm] at hg
    by_cases hs : sameAsset a fa
    · simp only [hs, if_pos hs] at hg
      exact ⟨a, ha, by rw [← Option.some_inj.mp hg]; rfl⟩
    · simp [hs] at hg

theorem removedNames_mem (r f : Release) (n : String) (h : n ∈ removedNames r f) :
    ∃ a ∈ f.assets, n = a.name := by
  rw [removedNames, List.mem_map] at h
  rcases h with ⟨a, ha, hn⟩
  exact ⟨a, List.mem_filter.mp ha |>.1, hn.symm⟩

theorem countItems_archAdd_ne (nm cur fmr other : String)
    (h : "archive/" ++ nm ≠ other) : countItems (archAddItems nm cur fmr) other = 0 := by
  rw [archAddItems]
  split
  · simp [countItems, h]
  · rfl

theorem countItems_archMod_ne (nm cur fmr other : String)
    (h : "archive/" ++ nm ≠ other) : countItems (archModItems nm cur fmr) other = 0 := by
  rw [archModItems]
  split
  · simp [countItems, h]
  · rfl

theorem countName_archRem_ne (nm cur fmr other : String)
    (h : nm ≠ other) : countName (archRemNames nm cur fmr) other = 0 := by
  rw [archRemNames]
  split
  · simp [countName, h]
  · rfl

theorem countItems_assetAdd_zero (f : Release) (as : List ReleaseAsset) (nm : String)
    (h : ∀ a ∈ as, a.name ≠ nm) : countItems (assetAddItems f as) nm = 0 := by
  apply countItems_eq_zero
  intro i hi
  rcases assetAddItems_names f as i hi with ⟨a, ha, he⟩
  rw [he]
  exact h a ha

theorem countItems_assetMod_zero (f : Release) (as : List ReleaseAsset) (nm : String)
    (h : ∀ a ∈ as, a.name ≠ nm) : countItems (assetModItems f as) nm = 0 := by
  apply countItems_eq_zero
  intro i hi
  rcases assetModItems_names f as i hi with ⟨a, ha, he⟩
  rw [he]
  exact h a ha

theorem countName_removedNames_zero (r f : Release) (nm : String)
    (h : ∀ a ∈ f.assets, a.name ≠ nm) : countName (removedNames r f) nm = 0 := by
  apply countName_eq_zero
  intro n hn
  rcases removedNames_mem r f n hn with ⟨a, ha, he⟩
  rw [he]
  exact h a ha

/-! Claim theorems. -/

/-- Claim C1 (counterexample): with tag `v1` in both snapshots, the
`zip_url` transition from empty to `"u"` produces no `add` entry at all —
the code files it under `modify` — and the `tar_url` transition from
`"w"` to empty appends the bare synthetic name `repo-v1.tar.gz` to the
removal list, not `archive/repo-v1.tar.gz` as the claim requires. -/
theorem archiveTransition_counterexample :
    relFmr1.zip_url = "" ∧ relCur1.zip_url ≠ "" ∧
    afind (collectDiff cfgCur1 (some cfgCmp1)).add "v1" = none ∧
    afind (collectDiff cfgCur1 (some cfgCmp1)).modify "v1" =
      some [{ downloadUrl := "u", filename := "archive/repo-v1.zip" }] ∧
    relFmr1.tar_url ≠ "" ∧ relCur1.tar_url = "" ∧
    afind (collectDiff cfgCur1 (some cfgCmp1)).remove "v1" =
      some (RemoveEntry.files ["repo-v1.tar.gz"]) := by
  decide

/-- Claim C1 (amended): for a tag present in both snapshots, an archive
slot URL that is empty in compare and non-empty in current produces
exactly one MODIFY entry (not `add`) with filename `archive/<synthetic>`
and none in `add`; the reverse transition appends exactly one entry with
the BARE synthetic filename to the tag's removal list, which is an
explicit file list, never the whole-tag sentinel; and a URL that is
non-empty on both sides but different produces exactly one ADD entry (not
`modify`).  The collision hypotheses rule out asset names equal to the
synthetic filenames. -/
theorem archiveTransition_amended (cfg cc : Config) (r f : Release) (t : String)
    (hn1 : (cfg.releases.map (fun x => x.tagName)).Nodup)
    (hn2 : (cc.releases.map (fun x => x.tagName)).Nodup)
    (hr : r ∈ cfg.releases) (hf : f ∈ cc.releases)
    (hrt : r.tagName = t) (hft : f.tagName = t)
    (hca : ∀ a ∈ r.assets,
      a.name ≠ "archive/" ++ archiveName cfg.name t "zip" ∧
      a.name ≠ "archive/" ++ archiveName cfg.name t "tar.gz")
    (hcf : ∀ a ∈ f.assets,
      a.name ≠ archiveName cfg.name t "zip" ∧
      a.name ≠ archiveName cfg.name t "tar.gz")
    (hzt : archiveName cfg.name t "zip" ≠ archiveName cfg.name t "tar.gz")
    (hazt : "archive/" ++ archiveName cfg.name t "zip"
      ≠ "archive/" ++ archiveName cfg.name t "tar.gz") :
    (f.zip_url = "" → r.zip_url ≠ "" →
      countNm (afind (collectDiff cfg (some cc)).modify t)
        ("archive/" ++ archiveName cfg.name t "zip") = 1 ∧
      countNm (afind (collectDiff cfg (some cc)).add t)
        ("archive/" ++ archiveName cfg.name t "zip") = 0) ∧
    (f.zip_url ≠ "" → r.zip_url = "" →
      ∃ ns, afind (collectDiff cfg (some cc)).remove t = some (RemoveEntry.files ns) ∧
        countName ns (archiveName cfg.name t "zip") = 1) ∧
    (f.zip_url ≠ "" → r.zip_url ≠ "" → r.zip_url ≠ f.zip_url →
      countNm (afind (collectDiff cfg (some cc)).add t)
        ("archive/" ++ archiveName cfg.name t "zip") = 1 ∧
      countNm (afind (collectDiff cfg (some cc)).modify t)
        ("archive/" ++ archiveName cfg.name t "zip") = 0) ∧
    (f.tar_url = "" → r.tar_url ≠ "" →
      countNm (afind (collectDiff cfg (some cc)).modify t)
        ("archive/" ++ archiveName cfg.name t "tar.gz") = 1 ∧
      countNm (afind (collectDiff cfg (some cc)).add t)
        ("archive/" ++ archiveName cfg.name t "tar.gz") = 0) ∧
    (f.tar_url ≠ "" → r.tar_url = "" →
      ∃ ns, afind (collectDiff cfg (some cc)).remove t = some (RemoveEntry.files ns) ∧
        countName ns (archiveName cfg.name t "tar.gz") = 1) ∧
    (f.tar_url ≠ "" → r.tar_url ≠ "" → r.tar_url ≠ f.tar_url →
      countNm (afind (collectDiff cfg (some cc)).add t)
        ("archive/" ++ archiveName cfg.name t "tar.gz") = 1 ∧
      countNm (afind (collectDiff cfg (some cc)).modify t)
        ("archive/" ++ archiveName cfg.name t "tar.gz") = 0) := by
  have H := collectDiff_find_both cfg cc r f t hn1 hn2 hr hrt hf hft
  have hcaz : ∀ a ∈ r.assets, a.name ≠ "archive/" ++ archiveName cfg.name t "zip" :=
    fun a ha => (hca a ha).1
  have hcat : ∀ a ∈ r.assets, a.name ≠ "archive/" ++ archiveName cfg.name t "tar.gz" :=
    fun a ha => (hca a ha).2
  have hcfz : ∀ a ∈ f.assets, a.name ≠ archiveName cfg.name t "zip" :=
    fun a ha => (hcf a ha).1
  have hcft : ∀ a ∈ f.assets, a.name ≠ archiveName cfg.name t "tar.gz" :=
    fun a ha => (hcf a ha).2
  refine ⟨?_, ?_, ?_, ?_, ?_, ?_⟩
  · intro hfz hcz
    constructor
    · rw [H.2.2.1, countNm_listOpt, countItems_append, countItems_append]
      have h1 := countItems_assetMod_zero f r.assets _ hcaz
      have h2 : archModItems (archiveName cfg.name t "zip") r.zip_url f.zip_url =
          [{ downloadUrl := r.zip_url,
             filename := "archive/" ++ archiveName cfg.name t "zip" }] := by
        rw [archModItems, if_pos ⟨by rw [hfz]; exact hcz, hcz, hfz⟩]
      have h3 := countItems_archMod_ne (archiveName cfg.name t "tar.gz")
        r.tar_url f.tar_url _ (fun hh => hazt hh.symm)
      rw [h1, h2, h3, countItems_singleton_self]
    · rw [H.1, countNm_listOpt, countItems_append, countItems_append]
      have h1 := countItems_assetAdd_zero f r.assets _ hcaz
      have h2 : archAddItems (archiveName cfg.name t "zip") r.zip_url f.zip_url = [] := by
        rw [archAddItems, if_neg]
        intro hcond
        exact hcond.2.1 ⟨hcz, hfz⟩
      have h3 := countItems_archAdd_ne (archiveName cfg.name t "tar.gz")
        r.tar_url f.tar_url _ (fun hh => hazt hh.symm)
      rw [h1, h2, h3]
      rfl
  · intro hfz hcz
    have h2 : archRemNames (archiveName cfg.name t "zip") r.zip_url f.zip_url =
        [archiveName cfg.name t "zip"] := by
      rw [archRemNames, if_pos ⟨by rw [hcz]; exact fun hh => hfz hh.symm, hcz, hfz⟩]
    refine ⟨removedNames r f ++ archRemNames (archiveName cfg.name t "zip") r.zip_url f.zip_url
      ++ archRemNames (archiveName cfg.name t "tar.gz") r.tar_url f.tar_url, ?_, ?_⟩
    · rw [H.2.1, removeOpt, if_neg]
      simp [h2]
    · rw [countName_append, countName_append]
      have h1 := countName_removedNames_zero r f _ hcfz
      have h3 := countName_archRem_ne (archiveName cfg.name t "tar.gz")
        r.tar_url f.tar_url _ (fun hh => hzt hh.symm)
      rw [h1, h2, h3]
      simp [countName]
  · intro hfz hcz hne
    constructor
    · rw [H.1, countNm_listOpt, countItems_append, countItems_append]
      have h1 := countItems_assetAdd_zero f r.assets _ hcaz
      have h2 : archAddItems (archiveName cfg.name t "zip") r.zip_url f.zip_url =
          [{ downloadUrl := r.zip_url,
             filename := "archive/" ++ archiveName cfg.name t "zip" }] := by
        rw [archAddItems, if_pos ⟨hne, fun hc => hfz hc.2, fun hc => hcz hc.1⟩]
      have h3 := countItems_archAdd_ne (archiveName cfg.name t "tar.gz")
        r.tar_url f.tar_url _ (fun hh => hazt hh.symm)
      rw [h1, h2, h3, countItems_singleton_self]
    · rw [H.2.2.1, countNm_listOpt, countItems_append, countItems_append]
      have h1 := countItems_assetMod_zero f r.assets _ hcaz
      have h2 : archModItems (archiveName cfg.name t "zip") r.zip_url f.zip_url = [] := by
        rw [archModItems, if_neg]
        intro hcond
        exact hfz hcond.2.2
      have h3 := countItems_archMod_ne (archiveName cfg.name t "tar.gz")
        r.tar_url f.tar_url _ (fun hh => hazt hh.symm)
      rw [h1, h2, h3]
      rfl
  · intro hfz hcz
    constructor
    · rw [H.2.2.1, countNm_listOpt, countItems_append, countItems_append]
      have h1 := countItems_assetMod_zero f r.assets _ hcat
      have h2 : archModItems (archiveName cfg.name t "tar.gz") r.tar_url f.tar_url =
          [{ downloadUrl := r.tar_url,
             filename := "archive/" ++ archiveName cfg.name t "tar.gz" }] := by
        rw [archModItems, if_pos ⟨by rw [hfz]; exact hcz, hcz, hfz⟩]
      have h3 := countItems_archMod_ne (archiveName cfg.name t "zip")
        r.zip_url f.zip_url _ hazt
      rw [h1, h2, h3, countItems_singleton_self]
    · rw [H.1, countNm_listOpt, countItems_append, countItems_append]
      have h1 := countItems_assetAdd_zero f r.assets _ hcat
      have h2 : archAddItems (archiveName cfg.name t "tar.gz") r.tar_url f.tar_url = [] := by
        rw [archAddItems, if_neg]
        intro hcond
        exact hcond.2.1 ⟨hcz, hfz⟩
      have h3 := countItems_archAdd_ne (archiveName cfg.name t "zip")
        r.zip_url f.zip_url _ hazt
      rw [h1, h2, h3]
      rfl
  · intro hfz hcz
    have h2 : archRemNames (archiveName cfg.name t "tar.gz") r.tar_url f.tar_url =
        [archiveName cfg.name t "tar.gz"] := by
      rw [archRemNames, if_pos ⟨by rw [hcz]; exact fun hh => hfz hh.symm, hcz, hfz⟩]
    refine ⟨removedNames r f ++ archRemNames (archiveName cfg.name t "zip") r.zip_url f.zip_url
      ++ archRemNames (archiveName cfg.name t "tar.gz") r.tar_url f.tar_url, ?_, ?_⟩
    · rw [H.2.1, removeOpt, if_neg]
      simp [h2]
    · rw [countName_append, countName_append]
      have h1 := countName_removedNames_zero r f _ hcft
      have h3 := countName_archRem_ne (archiveName cfg.name t "zip")
        r.zip_url f.zip_url _ hzt
      rw [h1, h2, h3]
      simp [countName]
  · intro hfz hcz hne
    constructor
    · rw [H.1, countNm_listOpt, countItems_append, countItems_append]
      have h1 := countItems_assetAdd_zero f r.assets _ hcat
      have h2 : archAddItems (archiveName cfg.name t "tar.gz") r.tar_url f.tar_url =
          [{ downloadUrl := r.tar_url,
             filename := "archive/" ++ archiveName cfg.name t "tar.gz" }] := by
        rw [archAddItems, if_pos ⟨hne, fun hc => hfz hc.2, fun hc => hcz hc.1⟩]
      have h3 := countItems_archAdd_ne (archiveName cfg.name t "zip")
        r.zip_url f.zip_url _ hazt
      rw [h1, h2, h3, countItems_singleton_self]
    · rw [H.2.2.1, countNm_listOpt, countItems_append, countItems_append]
      have h1 := countItems_assetMod_zero f r.assets _ hcat
      have h2 : archModItems (archiveName cfg.name t "tar.gz") r.tar_url f.tar_url = [] := by
        rw [archModItems, if_neg]
        intro hcond
        exact hfz hcond.2.2
      have h3 := countItems_archMod_ne (archiveName cfg.name t "zip")
        r.zip_url f.zip_url _ hazt
      rw [h1, h2, h3]
      rfl

/-- Witness for the amended claim C1 at the concrete snapshots
`cfgCur1` / `cfgCmp1`: the zip slot goes empty to `"u"` and lands in
`modify`, the tar slot goes `"w"` to empty and lands in the removal
list. -/
theorem archiveTransition_amended_witness :
    relFmr1.zip_url = "" ∧ relCur1.zip_url ≠ "" ∧
    relFmr1.tar_url ≠ "" ∧ relCur1.tar_url = "" ∧
    (countNm (afind (collectDiff cfgCur1 (some cfgCmp1)).modify "v1")
        ("archive/" ++ archiveName cfgCur1.name "v1" "zip") = 1 ∧
      countNm (afind (collectDiff cfgCur1 (some cfgCmp1)).add "v1")
        ("archive/" ++ archiveName cfgCur1.name "v1" "zip") = 0) ∧
    (∃ ns, afind (collectDiff cfgCur1 (some cfgCmp1)).remove "v1" =
        some (RemoveEntry.files ns) ∧
      countName ns (archiveName cfgCur1.name "v1" "tar.gz") = 1) :=
  ⟨by decide, by decide, by decide, by decide,
    (archiveTransition_amended cfgCur1 cfgCmp1 relCur1 relFmr1 "v1"
      (by decide) (by decide) (by decide) (by decide) (by decide) (by decide)
      (by decide) (by decide) (by decide) (by decide)).1 (by decide) (by decide),
    (archiveTransition_amended cfgCur1 cfgCmp1 relCur1 relFmr1 "v1"
      (by decide) (by decide) (by decide) (by decide) (by decide) (by decide)
      (by decide) (by decide) (by decide) (by decide)).2.2.2.2.1 (by decide) (by decide)⟩

theorem keys_append {α : Type} (m1 m2 : List (String × α)) :
    keys (m1 ++ m2) = keys m1 ++ keys m2 := by
  simp [keys]

theorem mem_entriesOf_of_mem (m : List (String × List NewRecordItem))
    (p : String × List NewRecordItem) (i : NewRecordItem)
    (hp : p ∈ m) (hi : i ∈ p.2) : (p.1, i) ∈ entriesOf m := by
  induction m with
  | nil => simp at hp
  | cons q rest ih =>
    rw [entriesOf_cons, List.mem_append]
    rcases List.mem_cons.mp hp with rfl | hp'
    · exact Or.inl (List.mem_map_of_mem _ hi)
    · exact Or.inr (ih hp')

theorem noCompareStep_fresh (cfgName : String) (acc : DiffRec) (r : Release)
    (h : r.tagName ∉ keys acc.add) :
    noCompareStep cfgName acc r =
      { acc with add := acc.add ++ [(r.tagName, noCompareAdds cfgName r)] } := by
  rw [noCompareStep]
  simp only
  rw [aset_fresh acc.add r.tagName _ h, apush_fresh_append acc.add r.tagName _ _ h,
    apush_fresh_append acc.add r.tagName _ _ h]
  rw [noCompareAdds, List.append_assoc]
  rfl

theorem noCompare_foldAux (cfgName : String) (l : List Release) (acc : DiffRec)
    (hn : (l.map (fun x => x.tagName)).Nodup)
    (hfresh : ∀ r ∈ l, r.tagName ∉ keys acc.add) :
    l.foldl (noCompareStep cfgName) acc =
      { acc with
        add := acc.add ++ l.map (fun r => (r.tagName, noCompareAdds cfgName r)) } := by
  induction l generalizing acc with
  | nil => simp
  | cons r l ih =>
    rw [List.map_cons, List.nodup_cons] at hn
    rw [List.foldl_cons,
      noCompareStep_fresh cfgName acc r (hfresh r (List.mem_cons_self _ _))]
    have hfresh' : ∀ x ∈ l,
        x.tagName ∉ keys (acc.add ++ [(r.tagName, noCompareAdds cfgName r)]) := by
      intro x hx
      rw [keys_append, List.mem_append]
      rintro (hk | hk)
      · exact hfresh x (List.mem_cons_of_mem _ hx) hk
      · simp only [keys, List.map_cons, List.map_nil, List.mem_singleton] at hk
        exact hn.1 (hk ▸ List.mem_map_of_mem (fun y => y.tagName) hx)
    rw [ih _ hn.2 hfresh']
    simp [List.append_assoc]

/-- Full output of `collectDiff` without a compare snapshot: one `add`
binding per release — assets, then the zip and tar archive entries,
present or not — with the other records empty. -/
theorem collectDiff_none_eq (cfg : Config)
    (hn : (cfg.releases.map (fun x => x.tagName)).Nodup) :
    collectDiff cfg none =
      { add := cfg.releases.map (fun r => (r.tagName, noCompareAdds cfg.name r)),
        remove := [], modify := [], passedModify := [] } := by
  have h0 : collectDiff cfg none =
      cfg.releases.foldl (noCompareStep cfg.name)
        { add := [], remove := [], modify := [], passedModify := [] } := rfl
  rw [h0, noCompare_foldAux cfg.name cfg.releases _ hn (by simp [keys])]
  rfl

/-- Claim C2 (counterexample): with no compare snapshot, a release with no
assets and both archive slots empty still receives two `add` entries —
one per absent slot, with an empty download URL — where the claim
requires none. -/
theorem noCompare_counterexample :
    relBare.zip_url = "" ∧ relBare.tar_url = "" ∧ relBare.assets = [] ∧
    afind (collectDiff cfgBare none).add "v2" =
      some [{ downloadUrl := "", filename := "archive/repo-v2.zip" },
            { downloadUrl := "", filename := "archive/repo-v2.tar.gz" }] := by
  decide

/-- Claim C2 (amended): `computeDiff(cfg, null)` classifies every asset of
every release into `add` and additionally pushes exactly one `add` entry
per archive slot regardless of presence — zip then tar, with the slot's
(possibly empty) URL and an `archive/` filename — and leaves `remove` and
`modify` empty. -/
theorem noCompare_amended (cfg : Config)
    (hn : (cfg.releases.map (fun x => x.tagName)).Nodup) :
    (collectDiff cfg none).add =
      cfg.releases.map (fun r => (r.tagName, noCompareAdds cfg.name r)) ∧
    (collectDiff cfg none).remove = [] ∧
    (collectDiff cfg none).modify = [] ∧
    ∀ r ∈ cfg.releases, ∀ a ∈ r.assets,
      (r.tagName, mkItem a) ∈ entriesOf (collectDiff cfg none).add := by
  have h := collectDiff_none_eq cfg hn
  refine ⟨by rw [h], by rw [h], by rw [h], ?_⟩
  intro r hr a ha
  rw [h]
  simp only
  apply mem_entriesOf_of_mem _ (r.tagName, noCompareAdds cfg.name r)
  · exact List.mem_map.mpr ⟨r, hr, rfl⟩
  · simp only
    rw [noCompareAdds]
    exact List.mem_append.mpr (Or.inl (List.mem_map_of_mem _ ha))

/-- Witness for the amended claim C2 at `cfgSelf`: one asset plus the two
unconditional archive entries. -/
theorem noCompare_amended_witness :
    ((cfgSelf.releases.map (fun x => x.tagName)).Nodup) ∧
    ((collectDiff cfgSelf none).add =
      cfgSelf.releases.map (fun r => (r.tagName, noCompareAdds cfgSelf.name r)) ∧
    (collectDiff cfgSelf none).remove = [] ∧
    (collectDiff cfgSelf none).modify = [] ∧
    ∀ r ∈ cfgSelf.releases, ∀ a ∈ r.assets,
      (r.tagName, mkItem a) ∈ entriesOf (collectDiff cfgSelf none).add) :=
  ⟨by decide, noCompare_amended cfgSelf (by decide)⟩

theorem sameAsset_refl (a : ReleaseAsset) : sameAsset a a = true := by
  simp [sameAsset]

theorem assetItems_refl (f : Release) (as : List ReleaseAsset)
    (h : ∀ a ∈ as, mlookup (fun x => x.name) f.assets a.name = some a) :
    assetAddItems f as = [] ∧ assetModItems f as = [] ∧
    assetPassItems f as = as.map mkItem := by
  induction as with
  | nil => exact ⟨rfl, rfl, rfl⟩
  | cons a as ih =>
    have ha := h a (List.mem_cons_self _ _)
    have htl := ih (fun x hx => h x (List.mem_cons_of_mem _ hx))
    refine ⟨?_, ?_, ?_⟩
    · rw [assetAddItems, List.filterMap_cons, ha]
      exact htl.1
    · rw [assetModItems, List.filterMap_cons, ha]
      simp only [sameAsset_refl, if_pos]
      exact htl.2.1
    · rw [assetPassItems, List.filterMap_cons, ha]
      simp only [sameAsset_refl, if_pos]
      rw [List.map_cons]
      rw [assetPassItems] at htl
      rw [htl.2.2]

theorem removedNames_refl (r : Release) : removedNames r r = [] := by
  rw [removedNames]
  have h : r.assets.filter (fun a => !(r.assets.any (fun c => c.name == a.name))) = [] := by
    rw [List.filter_eq_nil_iff]
    intro a ha
    have hany : (r.assets.any fun c => c.name == a.name) = true :=
      List.any_eq_true.mpr ⟨a, ha, by simp⟩
    simp [hany]
  rw [h]
  rfl

theorem stepRelease_self (cfgName : String) (fg : String → Option Release)
    (rec : DiffRec) (r : Release) (hfg : fg r.tagName = some r)
    (hnames : (r.assets.map (fun a => a.name)).Nodup) :
    stepRelease cfgName fg rec r =
      { rec with
        passedModify :=
          apushAll rec.passedModify r.tagName
            (r.assets.map mkItem
              ++ archPassItems (archiveName cfgName r.tagName "zip") r.zip_url r.zip_url
              ++ archPassItems (archiveName cfgName r.tagName "tar.gz")
                  r.tar_url r.tar_url) } := by
  rw [stepRelease_some_eq cfgName fg rec r r hfg]
  have hml : ∀ a ∈ r.assets, mlookup (fun x => x.name) r.assets a.name = some a :=
    fun a ha => mlookup_nodup _ _ _ _ hnames ha rfl
  rcases assetItems_refl r r.assets hml with ⟨h1, h2, h3⟩
  rw [h1, h2, h3, removedNames_refl]
  simp [archAddItems, archModItems, archRemNames, apushAll_nil, rpushAll_nil]

theorem foldl_stepRelease_self (cfgName : String) (fg : String → Option Release)
    (l : List Release) (rec : DiffRec)
    (h : ∀ r ∈ l, fg r.tagName = some r ∧ (r.assets.map (fun a => a.name)).Nodup) :
    (l.foldl (stepRelease cfgName fg) rec).add = rec.add ∧
    (l.foldl (stepRelease cfgName fg) rec).remove = rec.remove ∧
    (l.foldl (stepRelease cfgName fg) rec).modify = rec.modify ∧
    (∀ x ∈ entriesOf rec.passedModify,
      x ∈ entriesOf (l.foldl (stepRelease cfgName fg) rec).passedModify) ∧
    (∀ r ∈ l, ∀ a ∈ r.assets,
      (r.tagName, mkItem a) ∈ entriesOf (l.foldl (stepRelease cfgName fg) rec).passedModify) := by
  induction l generalizing rec with
  | nil =>
    refine ⟨rfl, rfl, rfl, fun x hx => hx, ?_⟩
    intro r hr
    simp at hr
  | cons r l ih =>
    have hr := h r (List.mem_cons_self _ _)
    rw [List.foldl_cons, stepRelease_self cfgName fg rec r hr.1 hr.2]
    have htl := ih
      { rec with
        passedModify :=
          apushAll rec.passedModify r.tagName
            (r.assets.map mkItem
              ++ archPassItems (archiveName cfgName r.tagName "zip") r.zip_url r.zip_url
              ++ archPassItems (archiveName cfgName r.tagName "tar.gz")
                  r.tar_url r.tar_url) }
      (fun x hx => h x (List.mem_cons_of_mem _ hx))
    refine ⟨htl.1, htl.2.1, htl.2.2.1, ?_, ?_⟩
    · intro x hx
      apply htl.2.2.2.1
      simp only
      rw [mem_entriesOf_apushAll]
      exact Or.inl hx
    · intro r' hr' a ha
      rcases List.mem_cons.mp hr' with rfl | hr''
      · apply htl.2.2.2.1
        simp only
        rw [mem_entriesOf_apushAll]
        refine Or.inr ⟨rfl, ?_⟩
        simp only
        exact List.mem_append.mpr (Or.inl (List.mem_append.mpr
          (Or.inl (List.mem_map_of_mem _ ha))))
      · exact htl.2.2.2.2 r' hr'' a ha

/-- Claim C3: `computeDiff(cfg, cfg)` on a well-formed snapshot (unique
tag names, unique asset names per release) yields empty `add`, `remove`
and `modify`, and every asset of every release appears in
`passedModify`. -/
theorem selfDiff_identity (cfg : Config)
    (hn : (cfg.releases.map (fun x => x.tagName)).Nodup)
    (hassets : ∀ r ∈ cfg.releases, (r.assets.map (fun a => a.name)).Nodup) :
    (collectDiff cfg (some cfg)).add = [] ∧
    (collectDiff cfg (some cfg)).remove = [] ∧
    (collectDiff cfg (some cfg)).modify = [] ∧
    ∀ r ∈ cfg.releases, ∀ a ∈ r.assets,
      (r.tagName, mkItem a) ∈ entriesOf (collectDiff cfg (some cfg)).passedModify := by
  have hrem0 : removedOf cfg cfg = [] := by
    rw [removedOf, List.filter_eq_nil_iff]
    intro r hr
    simp [List.any_eq_true]
    exact ⟨r, hr, rfl⟩
  have hinit : initialRemove cfg cfg = [] := by
    rw [initialRemove, hrem0]
    rfl
  have hfg : ∀ r ∈ cfg.releases, formerGetOf cfg cfg r.tagName = some r := by
    intro r hr
    rw [formerGetOf]
    simp only [hrem0]
    simp
    exact mlookup_nodup _ _ _ _ hn hr rfl
  rw [collectDiff_some_eq, hinit]
  have H := foldl_stepRelease_self cfg.name (formerGetOf cfg cfg) cfg.releases
    { add := [], remove := [], modify := [], passedModify := [] }
    (fun r hr => ⟨hfg r hr, hassets r hr⟩)
  exact ⟨H.1, H.2.1, H.2.2.1, H.2.2.2.2⟩

/-- Witness for claim C3 at `cfgSelf`: its single release's single asset
appears in `passedModify`, the three mutating records are empty. -/
theorem selfDiff_identity_witness :
    ((cfgSelf.releases.map (fun x => x.tagName)).Nodup) ∧
    (∀ r ∈ cfgSelf.releases, (r.assets.map (fun a => a.name)).Nodup) ∧
    ((collectDiff cfgSelf (some cfgSelf)).add = [] ∧
    (collectDiff cfgSelf (some cfgSelf)).remove = [] ∧
    (collectDiff cfgSelf (some cfgSelf)).modify = [] ∧
    ∀ r ∈ cfgSelf.releases, ∀ a ∈ r.assets,
      (r.tagName, mkItem a) ∈ entriesOf (collectDiff cfgSelf (some cfgSelf)).passedModify) :=
  ⟨by decide, by decide, selfDiff_identity cfgSelf (by decide) (by decide)⟩

theorem computeFixGo_cons (th : String → Bool) (dt : String) (ign : List String)
    (tag : String) (item : NewRecordItem) (rest : List (String × NewRecordItem))
    (acc : List (String × List NewRecordItem)) :
    computeFixGo th dt ign ((tag, item) :: rest) acc =
      computeFixGo th dt ign rest
        (if (!(th (pathJoin dt (pathJoin tag item.filename)))
              && !(ign.contains (pathJoin tag item.filename))) = true
         then apush acc tag item else acc) := rfl

theorem mem_entriesOf_computeFixGo (th : String → Bool) (dt : String) (ign : List String)
    (l : List (String × NewRecordItem)) (acc : List (String × List NewRecordItem))
    (x : String × NewRecordItem) :
    x ∈ entriesOf (computeFixGo th dt ign l acc) ↔
      x ∈ entriesOf acc ∨
        (x ∈ l ∧ th (pathJoin dt (pathJoin x.1 x.2.filename)) = false ∧
          ign.contains (pathJoin x.1 x.2.filename) = false) := by
  induction l generalizing acc with
  | nil => simp [computeFixGo]
  | cons p rest ih =>
    rcases p with ⟨tag, item⟩
    rw [computeFixGo_cons, ih]
    by_cases hcond : (!(th (pathJoin dt (pathJoin tag item.filename)))
        && !(ign.contains (pathJoin tag item.filename))) = true
    · rw [if_pos hcond]
      rw [Bool.and_eq_true, Bool.not_eq_true', Bool.not_eq_true'] at hcond
      rw [mem_entriesOf_apush]
      constructor
      · rintro ((hx | rfl) | hx)
        · exact Or.inl hx
        · exact Or.inr ⟨List.mem_cons_self _ _, hcond.1, hcond.2⟩
        · exact Or.inr ⟨List.mem_cons_of_mem _ hx.1, hx.2⟩
      · rintro (hx | ⟨hmem, hc1, hc2⟩)
        · exact Or.inl (Or.inl hx)
        · rcases List.mem_cons.mp hmem with rfl | hmem'
          · exact Or.inl (Or.inr rfl)
          · exact Or.inr ⟨hmem', hc1, hc2⟩
    · rw [if_neg hcond]
      rw [Bool.and_eq_true, Bool.not_eq_true', Bool.not_eq_true'] at hcond
      constructor
      · rintro (hx | hx)
        · exact Or.inl hx
        · exact Or.inr ⟨List.mem_cons_of_mem _ hx.1, hx.2⟩
      · rintro (hx | ⟨hmem, hc1, hc2⟩)
        · exact Or.inl hx
        · rcases List.mem_cons.mp hmem with heq | hmem'
          · exfalso
            apply hcond
            rw [heq] at hc1 hc2
            exact ⟨hc1, hc2⟩
          · exact Or.inr ⟨hmem', hc1, hc2⟩

/-- Claim C4: a `(tag, item)` pair is scheduled under `fix` exactly when
it sits in `passedModify`, the live-target probe reports the path
`downloadTarget/tag/filename` absent, and the relative path
`tag/filename` is not among the paths already scheduled under `add` or
`modify` in the same run (the `ignoredFiles` set) — in particular a file
present in `add` is never double-scheduled into `fix`.  The final
conjunct spells out that the ignored-set test is exactly membership among
the `add`/`modify` paths. -/
theorem fix_schedules_iff (raw : DiffRec) (downloadTarget : String)
    (targetHas : String → Bool) (tag : String) (item : NewRecordItem) :
    ((tag, item) ∈ entriesOf (computeFix raw downloadTarget targetHas) ↔
      ((tag, item) ∈ entriesOf raw.passedModify ∧
        targetHas (pathJoin downloadTarget (pathJoin tag item.filename)) = false ∧
        (ignoredFiles raw).contains (pathJoin tag item.filename) = false)) ∧
    ((ignoredFiles raw).contains (pathJoin tag item.filename) = false ↔
      ∀ q ∈ entriesOf raw.add ++ entriesOf raw.modify,
        pathJoin q.1 q.2.filename ≠ pathJoin tag item.filename) := by
  constructor
  · rw [computeFix, mem_entriesOf_computeFixGo]
    simp [entriesOf]
  · rw [← Bool.not_eq_true, List.contains_iff_exists_mem_beq]
    simp only [beq_iff_eq, ignoredFiles, List.mem_map]
    constructor
    · intro hno q hq heq
      exact hno ⟨pathJoin q.1 q.2.filename, ⟨q, hq, rfl⟩, heq.symm⟩
    · rintro hall ⟨p, ⟨q, hq, rfl⟩, heq⟩
      exact hall q hq heq.symm

theorem stepRelease_remove_not_star (cfgName : String) (fg : String → Option Release)
    (rec : DiffRec) (r : Release) (t : String)
    (h : afind rec.remove t ≠ some RemoveEntry.star) :
    afind (stepRelease cfgName fg rec r).remove t ≠ some RemoveEntry.star := by
  by_cases ht : r.tagName = t
  · cases hm : fg r.tagName with
    | none =>
      rw [stepRelease_none_eq cfgName fg rec r hm]
      split
      · exact h
      · exact h
    | some f =>
      rw [stepRelease_some_eq cfgName fg rec r f hm, ht]
      simp only
      rw [ht] at *
      rw [afind_rpushAll_self]
      by_cases hrem : removedNames r f = []
      · rw [if_pos hrem]
        cases hb : afind rec.remove t with
        | none => simp [rfilesAppend]
        | some v =>
          cases v with
          | star => exact absurd hb h
          | files l => simp [rfilesAppend]
      · rw [if_neg hrem, afind_aset_self]
        simp [rfilesAppend]
  · rw [(stepRelease_afind_ne cfgName fg rec r t ht).2.1]
    exact h

theorem foldl_stepRelease_remove_not_star (cfgName : String)
    (fg : String → Option Release) (l : List Release) (rec : DiffRec) (t : String)
    (h : afind rec.remove t ≠ some RemoveEntry.star) :
    afind (l.foldl (stepRelease cfgName fg) rec).remove t ≠ some RemoveEntry.star := by
  induction l generalizing rec with
  | nil => exact h
  | cons r l ih =>
    rw [List.foldl_cons]
    exact ih _ (stepRelease_remove_not_star cfgName fg rec r t h)

theorem collectDiff_star_not_current (cfg cc : Config) (t : String)
    (h : afind (collectDiff cfg (some cc)).remove t = some RemoveEntry.star) :
    cfg.releases.any (fun r => r.tagName == t) = false := by
  by_cases hany : cfg.releases.any (fun r => r.tagName == t) = true
  · exfalso
    have hbase : afind (initialRemove cfg cc) t = none :=
      afind_initialRemove cfg cc t (removedOf_any_false cfg cc t hany)
    have hns := foldl_stepRelease_remove_not_star cfg.name (formerGetOf cfg cc)
      cfg.releases
      { add := [], remove := initialRemove cfg cc, modify := [], passedModify := [] } t
      (by simp only; rw [hbase]; simp)
    rw [collectDiff_some_eq] at h
    exact hns h
  · exact Bool.not_eq_true _ ▸ Bool.eq_false_iff.mpr (fun hc => hany hc)

theorem collectDiff_keys_current (cfg cc : Config) (t : String)
    (h : cfg.releases.any (fun r => r.tagName == t) = false) :
    afind (collectDiff cfg (some cc)).add t = none ∧
    afind (collectDiff cfg (some cc)).modify t = none ∧
    afind (collectDiff cfg (some cc)).passedModify t = none := by
  have hl : ∀ r ∈ cfg.releases, r.tagName ≠ t := by
    intro r hr heq
    have := (List.any_eq_false.mp h) r hr
    simp [heq] at this
  rw [collectDiff_some_eq]
  have H := foldl_stepRelease_afind_ne cfg.name (formerGetOf cfg cc) cfg.releases
    { add := [], remove := initialRemove cfg cc, modify := [], passedModify := [] } t hl
  exact ⟨H.1, H.2.2.1, H.2.2.2⟩

theorem computeFixGo_afind_none (th : String → Bool) (dt : String) (ign : List String)
    (l : List (String × NewRecordItem)) (acc : List (String × List NewRecordItem))
    (t : String) (hacc : afind acc t = none) (hl : ∀ p ∈ l, p.1 ≠ t) :
    afind (computeFixGo th dt ign l acc) t = none := by
  induction l generalizing acc with
  | nil => exact hacc
  | cons p rest ih =>
    rcases p with ⟨tag, item⟩
    rw [computeFixGo_cons]
    apply ih _ ?_ (fun q hq => hl q (List.mem_cons_of_mem _ hq))
    split
    · rw [afind_apush_ne _ _ _ _ (hl (tag, item) (List.mem_cons_self _ _))]
      exact hacc
    · exact hacc

/-- Claim C6: a tag marked with the whole-tag `"*"` sentinel in `remove`
appears as a key in none of `add`, `modify`, or the `fix` record computed
by the fix pass over the same diff. -/
theorem star_isolation (cfg cc : Config) (downloadTarget : String)
    (targetHas : String → Bool) (t : String)
    (hstar : afind (collectDiff cfg (some cc)).remove t = some RemoveEntry.star) :
    afind (collectDiff cfg (some cc)).add t = none ∧
    afind (collectDiff cfg (some cc)).modify t = none ∧
    afind (computeFix (collectDiff cfg (some cc)) downloadTarget targetHas) t = none := by
  have hany := collectDiff_star_not_current cfg cc t hstar
  have hkeys := collectDiff_keys_current cfg cc t hany
  refine ⟨hkeys.1, hkeys.2.1, ?_⟩
  rw [computeFix]
  apply computeFixGo_afind_none targetHas downloadTarget _ _ [] t rfl
  intro p hp hpt
  rcases p with ⟨ptag, pitem⟩
  rcases mem_entriesOf_key _ ptag pitem hp with ⟨q, hq, hq1⟩
  simp only at hpt
  rw [hpt] at hq1
  exact (afind_eq_none_iff _ t).mp hkeys.2.2 q hq hq1

/-- Witness for claim C6: `cfgStars`'s tags `t1`, `t2` are absent from
`cfgCur1`, so both are starred, and neither keys `add`, `modify` or
`fix`. -/
theorem star_isolation_witness :
    (afind (collectDiff cfgCur1 (some cfgStars)).remove "t1" = some RemoveEntry.star) ∧
    (afind (collectDiff cfgCur1 (some cfgStars)).add "t1" = none ∧
    afind (collectDiff cfgCur1 (some cfgStars)).modify "t1" = none ∧
    afind (computeFix (collectDiff cfgCur1 (some cfgStars)) "dl" (fun _ => false)) "t1"
      = none) :=
  ⟨by decide, star_isolation cfgCur1 cfgStars "dl" (fun _ => false) "t1" (by decide)⟩

/-- Claim C7 (evaluation at the failing input): the compare snapshot has
tags `t1` (one asset) and `t2` (three assets), both starred in a diff
against a current snapshot with no releases; `countDiffFiles` reports
`remove = 2`, because each `"*"` entry is expanded by looking up the
FIRST starred key (`t1`), where the claim requires `1 + 3 = 4`. -/
theorem countDiffFiles_doubleStar_eval :
    afind (collectDiff cfgEmpty (some cfgStars)).remove "t1" = some RemoveEntry.star ∧
    afind (collectDiff cfgEmpty (some cfgStars)).remove "t2" = some RemoveEntry.star ∧
    relT1.assets.length = 1 ∧ relT2.assets.length = 3 ∧
    countDiffFiles (mkDiff4 (collectDiff cfgEmpty (some cfgStars)) []) (some cfgStars) =
      { add := 0, remove := 2, modify := 0, fix := 0 } := by
  decide

theorem runM_cons (s : MutexState) (e : MEvent) (es : List MEvent) :
    runM s (e :: es) =
      ((runM (mstep s e).1 es).1, (mstep s e).2 ++ (runM (mstep s e).1 es).2) := rfl

theorem grantedOf_append (l1 l2 : List MOut) :
    grantedOf (l1 ++ l2) = grantedOf l1 ++ grantedOf l2 := by
  simp [grantedOf]

theorem queuedOf_append (l1 l2 : List MOut) :
    queuedOf (l1 ++ l2) = queuedOf l1 ++ queuedOf l2 := by
  simp [queuedOf]

theorem grantedOf_drained (l : List Nat) : grantedOf (l.map MOut.drained) = [] := by
  induction l with
  | nil => rfl
  | cons w ws ih => simp [grantedOf, List.filterMap_cons]

theorem queuedOf_drained (l : List Nat) : queuedOf (l.map MOut.drained) = [] := by
  induction l with
  | nil => rfl
  | cons w ws ih => simp [queuedOf, List.filterMap_cons]

theorem mutex_fifo_invariant (es : List MEvent) (s : MutexState) :
    grantedOf (runM s es).2 ++ (runM s es).1.waitingLockers =
      s.waitingLockers ++ queuedOf (runM s es).2 := by
  induction es generalizing s with
  | nil => simp [runM, grantedOf, queuedOf]
  | cons e es ih =>
    rw [runM_cons]
    simp only [grantedOf_append, queuedOf_append]
    cases e with
    | lock t =>
      by_cases hn : s.num < s.max
      · have hstep : mstep s (MEvent.lock t) =
            ({ s with num := s.num + 1 }, [MOut.grantedNow t]) := by
          simp [mstep, hn]
        rw [hstep]
        simp only [grantedOf, queuedOf, List.filterMap_cons, List.filterMap_nil]
        simpa using ih { s with num := s.num + 1 }
      · have hstep : mstep s (MEvent.lock t) =
            ({ s with waitingLockers := s.waitingLockers ++ [t] }, [MOut.queued t]) := by
          simp [mstep, hn]
        rw [hstep]
        simp only [grantedOf, queuedOf, List.filterMap_cons, List.filterMap_nil]
        have := ih { s with waitingLockers := s.waitingLockers ++ [t] }
        simp only at this
        simp only [grantedOf, queuedOf] at this
        simp [this, List.append_assoc]
    | release =>
      cases hw : s.waitingLockers with
      | cons t rest =>
        have hstep : mstep s MEvent.release =
            ({ s with num := s.num - 1 + 1, waitingLockers := rest }, [MOut.granted t]) := by
          simp [mstep, hw]
        rw [hstep]
        simp only [grantedOf, queuedOf, List.filterMap_cons, List.filterMap_nil]
        have := ih { s with num := s.num - 1 + 1, waitingLockers := rest }
        simp only at this
        simp only [grantedOf, queuedOf] at this
        simp [this, hw]
      | nil =>
        cases ha : s.waitingAll with
        | nil =>
          have hstep : mstep s MEvent.release = ({ s with num := s.num - 1 }, []) := by
            simp [mstep, hw, ha]
          rw [hstep]
          simpa [hw] using ih { s with num := s.num - 1 }
        | cons w ws =>
          by_cases hz : s.num - 1 = 0
          · have hstep : mstep s MEvent.release =
                ({ s with num := s.num - 1, waitingAll := [] },
                  (w :: ws).map MOut.drained) := by
              simp [mstep, hw, ha, hz]
            rw [hstep]
            rw [grantedOf_drained, queuedOf_drained]
            simpa [hw] using ih { s with num := s.num - 1, waitingAll := [] }
          · have hstep : mstep s MEvent.release =
                ({ s with num := s.num - 1, waitingAll := ws }, []) := by
              simp [mstep, hw, ha, hz]
            rw [hstep]
            simpa [hw] using ih { s with num := s.num - 1, waitingAll := ws }
    | waitAll w =>
      by_cases hz : s.num = 0
      · have hstep : mstep s (MEvent.waitAll w) = (s, [MOut.drained w]) := by
          simp [mstep, hz]
        rw [hstep]
        simp only [grantedOf, queuedOf, List.filterMap_cons, List.filterMap_nil]
        simpa using ih s
      · have hstep : mstep s (MEvent.waitAll w) =
            ({ s with waitingAll := s.waitingAll ++ [w] }, []) := by
          simp [mstep, hz]
        rw [hstep]
        simpa using ih { s with waitingAll := s.waitingAll ++ [w] }

/-- Claim C8: the bounded semaphore admits queued waiters in FIFO order of
their `lock` calls — in any event trace the tasks granted from the queue,
in order, followed by the still-waiting tasks, equal the initial queue
followed by the tasks that were queued, in order.  With capacity 1,
T1, T2, T3 locking in that order are admitted in that order, and the
pending `waitAll` resolves only at the third `release` — after two
releases nothing has been drained. -/
theorem mutex_fifo_drain :
    (∀ (es : List MEvent) (s : MutexState),
      grantedOf (runM s es).2 ++ (runM s es).1.waitingLockers =
        s.waitingLockers ++ queuedOf (runM s es).2) ∧
    (runM (mutexInit 1) [MEvent.lock 1, MEvent.lock 2, MEvent.lock 3, MEvent.waitAll 0,
        MEvent.release, MEvent.release, MEvent.release]).2 =
      [MOut.grantedNow 1, MOut.queued 2, MOut.queued 3, MOut.granted 2, MOut.granted 3,
        MOut.drained 0] ∧
    drainedOf (runM (mutexInit 1) [MEvent.lock 1, MEvent.lock 2, MEvent.lock 3,
        MEvent.waitAll 0, MEvent.release, MEvent.release]).2 = [] :=
  ⟨mutex_fifo_invariant, by decide, by decide⟩

theorem foldl_noCompareStep_remove_modify (cfgName : String) (l : List Release)
    (acc : DiffRec) :
    (l.foldl (noCompareStep cfgName) acc).remove = acc.remove ∧
    (l.foldl (noCompareStep cfgName) acc).modify = acc.modify := by
  induction l generalizing acc with
  | nil => exact ⟨rfl, rfl⟩
  | cons r l ih =>
    rw [List.foldl_cons]
    exact ih (noCompareStep cfgName acc r)

theorem collectDiff_none_remove_modify (cfg : Config) :
    (collectDiff cfg none).remove = [] ∧ (collectDiff cfg none).modify = [] := by
  have h0 : collectDiff cfg none =
      cfg.releases.foldl (noCompareStep cfg.name)
        { add := [], remove := [], modify := [], passedModify := [] } := rfl
  rw [h0]
  exact foldl_noCompareStep_remove_modify cfg.name cfg.releases _

/-- Claim C9: with an explicitly supplied compare path, an existing file
whose content fails to parse terminates the pipeline with exit code 1
before any diff is computed, while a missing file degrades to a null
compare — the run continues and the resulting diff has empty `remove`
and `modify` (everything is classified as `add`).  Both behaviors are
functions of the inputs, hence deterministic. -/
theorem compareLoad_errorHandling (comparePath : String) (parsed : Option Config)
    (cfg : Config) (hp : comparePath ≠ "") :
    runDiffPipeline comparePath true none cfg = Except.error 1 ∧
    (runDiffPipeline comparePath false parsed cfg = Except.ok (collectDiff cfg none) ∧
      (collectDiff cfg none).remove = [] ∧
      (collectDiff cfg none).modify = []) := by
  refine ⟨?_, ?_, (collectDiff_none_remove_modify cfg).1,
    (collectDiff_none_remove_modify cfg).2⟩
  · simp [runDiffPipeline, loadCompare, hp]
  · simp [runDiffPipeline, loadCompare, hp]

/-- Witness for claim C9 at path `cmp.json` and snapshot `cfgBare`. -/
theorem compareLoad_errorHandling_witness :
    ("cmp.json" ≠ "") ∧
    (runDiffPipeline "cmp.json" true none cfgBare = Except.error 1 ∧
    (runDiffPipeline "cmp.json" false none cfgBare = Except.ok (collectDiff cfgBare none) ∧
      (collectDiff cfgBare none).remove = [] ∧
      (collectDiff cfgBare none).modify = [])) :=
  ⟨by decide, compareLoad_errorHandling "cmp.json" none cfgBare (by decide)⟩

/-- Claim C10: the `-h` / `--help` branch of the argument loop terminates
the process with exit code 1, never 0: `usage()` itself exits with code 1,
so the `process.exit(0)` that follows it is unreachable.  This holds for
any argument tail and accumulated state, and for a full invocation with a
repository argument. -/
theorem help_exits_one :
    (∀ (args : List String) (opts : SyncOptions) (rest : List String),
      parseLoop ("-h" :: args) opts rest = ParseOutcome.exited 1) ∧
    (∀ (args : List String) (opts : SyncOptions) (rest : List String),
      parseLoop ("--help" :: args) opts rest = ParseOutcome.exited 1) ∧
    parseArgsModel ["owner/repo", "-h"] = ParseOutcome.exited 1 ∧
    parseArgsModel ["owner/repo", "--help"] = ParseOutcome.exited 1 :=
  ⟨fun _ _ _ => rfl, fun _ _ _ => rfl, by decide, by decide⟩

theorem listOpt_getD {α : Type} (l : List α) : (listOpt l).getD [] = l := by
  cases l with
  | nil => rfl
  | cons x xs => rfl

theorem mem_archAddItems (nm cur fmr : String) (i : NewRecordItem)
    (h : i ∈ archAddItems nm cur fmr) :
    i = { downloadUrl := cur, filename := "archive/" ++ nm } := by
  rw [archAddItems] at h
  split at h
  · simpa using h
  · simp at h

theorem mem_archModItems (nm cur fmr : String) (i : NewRecordItem)
    (h : i ∈ archModItems nm cur fmr) :
    i = { downloadUrl := cur, filename := "archive/" ++ nm } := by
  rw [archModItems] at h
  split at h
  · simpa using h
  · simp at h

theorem mem_archRemNames (nm cur fmr : String) (n : String)
    (h : n ∈ archRemNames nm cur fmr) : n = nm := by
  rw [archRemNames] at h
  split at h
  · simpa using h
  · simp at h

theorem removeOpt_files_inj (ns ns0 : List String)
    (h : removeOpt ns = some (RemoveEntry.files ns0)) : ns0 = ns := by
  rw [removeOpt] at h
  split at h
  · simp at h
  · rw [Option.some_inj] at h
    injection h with h'
    exact h'.symm

/-- Claim C5 (counterexample): a release that is entirely new relative to
the compare snapshot gets its archive slot filed under the bare synthetic
name `repo-v1.zip`, with no `archive/` sub-path, contradicting the
invariant for new releases. -/
theorem archivePath_counterexample :
    relCur1.zip_url ≠ "" ∧
    (∀ x ∈ cfgEmpty.releases, x.tagName ≠ "v1") ∧
    afind (collectDiff cfgCur1 (some cfgEmpty)).add "v1" =
      some [{ downloadUrl := "u", filename := "repo-v1.zip" }] ∧
    countNm (afind (collectDiff cfgCur1 (some cfgEmpty)).add "v1")
      ("archive/" ++ archiveName "repo" "v1" "zip") = 0 := by
  refine ⟨by decide, ?_, by decide, by decide⟩
  intro x hx
  simp [cfgEmpty] at hx

/-- Claim C5 (amended): archive-slot filenames are placed under the
`archive/` sub-path in `add` and `modify` entries for tags present in
both snapshots and in every entry of the null-compare branch; but the
filenames appended to a tag's removal list, and the archive entries of an
entirely-new release, use the bare synthetic name with no `archive/`
sub-path. -/
theorem archivePath_amended (cfg cc : Config) (r f : Release) (t : String)
    (hn1 : (cfg.releases.map (fun x => x.tagName)).Nodup)
    (hn2 : (cc.releases.map (fun x => x.tagName)).Nodup)
    (hr : r ∈ cfg.releases) (hrt : r.tagName = t) :
    (f ∈ cc.releases → f.tagName = t →
      (∀ i ∈ (afind (collectDiff cfg (some cc)).add t).getD [],
        i.filename ∈ r.assets.map (fun a => a.name) ∨
        i.filename = "archive/" ++ archiveName cfg.name t "zip" ∨
        i.filename = "archive/" ++ archiveName cfg.name t "tar.gz") ∧
      (∀ i ∈ (afind (collectDiff cfg (some cc)).modify t).getD [],
        i.filename ∈ r.assets.map (fun a => a.name) ∨
        i.filename = "archive/" ++ archiveName cfg.name t "zip" ∨
        i.filename = "archive/" ++ archiveName cfg.name t "tar.gz") ∧
      (∀ ns0, afind (collectDiff cfg (some cc)).remove t = some (RemoveEntry.files ns0) →
        ∀ n ∈ ns0, n ∈ f.assets.map (fun a => a.name) ∨
          n = archiveName cfg.name t "zip" ∨ n = archiveName cfg.name t "tar.gz")) ∧
    ((∀ x ∈ cc.releases, x.tagName ≠ t) → r.zip_url ≠ "" →
      { downloadUrl := r.zip_url, filename := archiveName cfg.name t "zip" } ∈
        (afind (collectDiff cfg (some cc)).add t).getD []) ∧
    ((∀ x ∈ cc.releases, x.tagName ≠ t) → r.tar_url ≠ "" →
      { downloadUrl := r.tar_url, filename := archiveName cfg.name t "tar.gz" } ∈
        (afind (collectDiff cfg (some cc)).add t).getD []) ∧
    ((t, { downloadUrl := r.zip_url,
           filename := "archive/" ++ archiveName cfg.name t "zip" }) ∈
      entriesOf (collectDiff cfg none).add) ∧
    ((t, { downloadUrl := r.tar_url,
           filename := "archive/" ++ archiveName cfg.name t "tar.gz" }) ∈
      entriesOf (collectDiff cfg none).add) := by
  have hnull : (t, { downloadUrl := r.zip_url,
                     filename := "archive/" ++ archiveName cfg.name t "zip" }) ∈
        entriesOf (collectDiff cfg none).add ∧
      (t, { downloadUrl := r.tar_url,
            filename := "archive/" ++ archiveName cfg.name t "tar.gz" }) ∈
        entriesOf (collectDiff cfg none).add := by
    rw [collectDiff_none_eq cfg hn1]
    simp only
    constructor
    · rw [← hrt]
      apply mem_entriesOf_of_mem _ (r.tagName, noCompareAdds cfg.name r)
      · exact List.mem_map.mpr ⟨r, hr, rfl⟩
      · simp only [noCompareAdds, hrt]
        exact List.mem_append.mpr (Or.inr (List.mem_cons_self _ _))
    · rw [← hrt]
      apply mem_entriesOf_of_mem _ (r.tagName, noCompareAdds cfg.name r)
      · exact List.mem_map.mpr ⟨r, hr, rfl⟩
      · simp only [noCompareAdds, hrt]
        exact List.mem_append.mpr (Or.inr
          (List.mem_cons_of_mem _ (List.mem_cons_self _ _)))
  refine ⟨?_, ?_, ?_, hnull.1, hnull.2⟩
  · intro hf hft
    have H := collectDiff_find_both cfg cc r f t hn1 hn2 hr hrt hf hft
    refine ⟨?_, ?_, ?_⟩
    · intro i hi
      rw [H.1, listOpt_getD] at hi
      rcases List.mem_append.mp hi with hi' | hiarch
      · rcases List.mem_append.mp hi' with hia | hiz
        · rcases assetAddItems_names f r.assets i hia with ⟨a, ha, he⟩
          exact Or.inl (he ▸ List.mem_map_of_mem _ ha)
        · exact Or.inr (Or.inl (by rw [mem_archAddItems _ _ _ _ hiz]))
      · exact Or.inr (Or.inr (by rw [mem_archAddItems _ _ _ _ hiarch]))
    · intro i hi
      rw [H.2.2.1, listOpt_getD] at hi
      rcases List.mem_append.mp hi with hi' | hiarch
      · rcases List.mem_append.mp hi' with hia | hiz
        · rcases assetModItems_names f r.assets i hia with ⟨a, ha, he⟩
          exact Or.inl (he ▸ List.mem_map_of_mem _ ha)
        · exact Or.inr (Or.inl (by rw [mem_archModItems _ _ _ _ hiz]))
      · exact Or.inr (Or.inr (by rw [mem_archModItems _ _ _ _ hiarch]))
    · intro ns0 hns n hn
      rw [H.2.1] at hns
      rw [removeOpt_files_inj _ _ hns] at hn
      rcases List.mem_append.mp hn with hn' | hnarch
      · rcases List.mem_append.mp hn' with hna | hnz
        · rcases removedNames_mem r f n hna with ⟨a, ha, he⟩
          exact Or.inl (he ▸ List.mem_map_of_mem _ ha)
        · exact Or.inr (Or.inl (mem_archRemNames _ _ _ _ hnz))
      · exact Or.inr (Or.inr (mem_archRemNames _ _ _ _ hnarch))
  · intro hnf hz
    have H := collectDiff_find_new cfg cc r t hn1 hr hrt hnf
    rw [H.1, listOpt_getD, newReleaseAdds]
    refine List.mem_append.mpr (Or.inr ?_)
    rw [if_pos hz, hrt]
    exact List.mem_singleton.mpr rfl
  · intro hnf hz
    have H := collectDiff_find_new cfg cc r t hn1 hr hrt hnf
    rw [H.1, listOpt_getD, newReleaseAdds]
    refine List.mem_append.mpr (Or.inl (List.mem_append.mpr (Or.inr ?_)))
    rw [if_pos hz, hrt]
    exact List.mem_singleton.mpr rfl

/-- Witness for the amended claim C5 at `cfgCur1` / `cfgCmp1`: the archive
entry in `modify` carries the `archive/` sub-path, and the new-release
branch against an empty compare yields the bare name. -/
theorem archivePath_amended_witness :
    (relCur1 ∈ cfgCur1.releases) ∧ (relFmr1 ∈ cfgCmp1.releases) ∧
    (∀ i ∈ (afind (collectDiff cfgCur1 (some cfgCmp1)).modify "v1").getD [],
      i.filename ∈ relCur1.assets.map (fun a => a.name) ∨
      i.filename = "archive/" ++ archiveName cfgCur1.name "v1" "zip" ∨
      i.filename = "archive/" ++ archiveName cfgCur1.name "v1" "tar.gz") :=
  ⟨by decide, by decide,
    ((archivePath_amended cfgCur1 cfgCmp1 relCur1 relFmr1 "v1"
      (by decide) (by decide) (by decide) (by decide)).1 (by decide) (by decide)).2.1⟩

end ReleaseViewer
